import Mathlib

/-!
Shallow embedding of the IdeaHive page-content versioning and block-ordering
engine (src/controllers/blockController.js, src/controllers/pageContentController.js,
src/controllers/favoritesController.js).

Mongo ObjectIds, user ids, page ids and template ids are modelled as natural
numbers; timestamps (`new Date()`) are a natural-number clock passed to each
operation.  Each controller is embedded as a pure function from a database
state to a new state plus an HTTP-level result.  Only the document-store part
after the SQL permission checks is modelled (plus an explicitly checked
variant of updateBlock where a claim is about the permission check itself).
-/

namespace IdeaHive

/-- A document in the `blocks` collection. -/
structure Block where
  id : Nat
  pageId : Nat
  type : String
  content : String
  properties : List (String × String)
  children : List Nat
  position : Int
  createdBy : Nat
  createdAt : Nat
  updatedAt : Nat
deriving Repr, DecidableEq

/-- An element of a `page_contents.blocks` array or a `page_history.content`
array.  Ordinarily it is a block id; the applyTemplate history path stores
full block documents instead, so both shapes occur. -/
inductive BlockRef where
  | id (n : Nat)
  | doc (b : Block)
deriving Repr, DecidableEq

/-- A document in the `page_contents` collection. -/
structure PageContent where
  pageId : Nat
  blocks : List BlockRef
  version : Nat
  lastEditedBy : Nat
  lastEditedAt : Nat
deriving Repr, DecidableEq

/-- A document in the `page_history` collection. -/
structure HistoryEntry where
  pageId : Nat
  version : Nat
  content : List BlockRef
  editedBy : Nat
  editedAt : Nat
deriving Repr, DecidableEq

/-- One block-shaped entry of a template's `content` array.  The apply path
spreads the entry and then overrides `_id`, `pageId`, `createdBy`, `createdAt`,
`updatedAt` and `position`, so only the remaining block fields matter. -/
structure TemplateBlock where
  type : String
  content : String
  properties : List (String × String)
  children : List Nat
deriving Repr, DecidableEq

/-- A document in the `templates` collection (content part only). -/
structure Template where
  id : Nat
  content : List TemplateBlock
deriving Repr, DecidableEq

/-- The document-store state: the three collections driven by the engine,
the template collection it reads, and the ObjectId generator. -/
structure DB where
  blocks : List Block
  contents : List PageContent
  history : List HistoryEntry
  templates : List Template
  nextId : Nat
deriving Repr, DecidableEq

/-- HTTP-level outcome of an operation. -/
inductive Res where
  | createdBlock (b : Block)
  | okBlock (b : Block)
  | okDeleted
  | okPositionUnchanged
  | okPositionChanged
  | okUpdated (version : Nat)
  | okRestored (version restoredFrom : Nat)
  | okTemplateApplied
  | badRequest
  | notFound
  | forbidden
  | internal
deriving Repr, DecidableEq

/-- Whether a result is a success (HTTP 2xx) response. -/
def Res.isSuccess : Res → Bool
  | .createdBlock _ => true
  | .okBlock _ => true
  | .okDeleted => true
  | .okPositionUnchanged => true
  | .okPositionChanged => true
  | .okUpdated _ => true
  | .okRestored _ _ => true
  | .okTemplateApplied => true
  | _ => false

/-! ### Store primitives

Mongo `updateOne` / `deleteOne` touch the first document matching the filter;
`find` / `deleteMany` touch all of them, preserving collection order. -/

/-- `updateOne`: rewrite the first element satisfying `p`. -/
def updateFirst (p : α → Bool) (f : α → α) : List α → List α
  | [] => []
  | a :: l => if p a then f a :: l else a :: updateFirst p f l

/-- `deleteOne`: remove the first element satisfying `p`. -/
def removeFirst (p : α → Bool) : List α → List α
  | [] => []
  | a :: l => if p a then l else a :: removeFirst p l

/-- `Array.prototype.splice(n, 0, x)` for `n ≥ 0`: insert at index `n`,
clamped to the end of the array. -/
def insertAt (l : List α) (n : Nat) (x : α) : List α :=
  match n, l with
  | 0, l => x :: l
  | _ + 1, [] => [x]
  | n + 1, a :: l => a :: insertAt l n x

/-- `Array.prototype.splice(i, 0, x)` with a possibly negative JS index:
negative indices count from the end, clamped at 0. -/
def jsInsert (l : List α) (i : Int) (x : α) : List α :=
  if i < 0 then insertAt l ((l.length : Int) + i).toNat x else insertAt l i.toNat x

/-- Stable insertion into a position-sorted list (helper for `sortByPos`). -/
def insertByPos (b : Block) : List Block → List Block
  | [] => [b]
  | a :: l => if b.position ≤ a.position then b :: a :: l else a :: insertByPos b l

/-- Mongo `sort({position: 1})`, modelled as a stable insertion sort. -/
def sortByPos : List Block → List Block
  | [] => []
  | a :: l => insertByPos a (sortByPos l)

/-- `new ObjectId(ref)`: succeeds on an id, throws (`none`) on an embedded
block document. -/
def refOid : BlockRef → Option Nat
  | .id n => some n
  | .doc _ => none

/-- `refs.map(id => new ObjectId(id))`, propagating the exception. -/
def refIds : List BlockRef → Option (List Nat)
  | [] => some []
  | r :: l => match refOid r, refIds l with
    | some n, some ns => some (n :: ns)
    | _, _ => none

/-- `ref.toString() === id` where `id` is the hex string of a block id: an
embedded document stringifies to "[object Object]" and never matches. -/
def refMatches (r : BlockRef) (target : Nat) : Bool :=
  match r with
  | .id n => n == target
  | .doc _ => false

/-- `findOne({_id: id})` on the blocks collection. -/
def findBlock (db : DB) (blockId : Nat) : Option Block :=
  db.blocks.find? (fun b => b.id == blockId)

/-- `findOne({pageId})` on the page_contents collection. -/
def findContent (db : DB) (pageId : Nat) : Option PageContent :=
  db.contents.find? (fun c => c.pageId == pageId)

/-- The `$set` document the mutating operations write to `page_contents`:
optionally a new block list, plus version, lastEditedBy and lastEditedAt. -/
def setContent (bl : Option (List BlockRef)) (v u now : Nat) (c : PageContent) : PageContent :=
  { c with blocks := bl.getD c.blocks, version := v, lastEditedBy := u, lastEditedAt := now }

/-- The blocks whose `pageId` field names the given page, in store order. -/
def pageBlocks (db : DB) (pid : Nat) : List Block :=
  db.blocks.filter (fun b => b.pageId == pid)

/-! ### createBlock (blockController.js) -/

/-- `POST /api/blocks`.  Inserts the new block, then—when the page already has
a content record—shifts the positions of the listed blocks at or after the
requested position, splices the new id into the list and bumps the version;
otherwise creates the content record at version 1. -/
def createBlock (db : DB) (userId pageId : Nat) (ty : String) (content : Option String)
    (position : Option Int) (properties : Option (List (String × String)))
    (now : Nat) : DB × Res :=
  let pageContent := findContent db pageId
  let blockId := db.nextId
  let newBlock : Block :=
    { id := blockId, pageId := pageId, type := ty,
      content := content.getD "",
      position := match position with
        | some p => p
        | none => ((pageContent.map (fun pc => pc.blocks.length)).getD 0 : Nat),
      properties := properties.getD [],
      children := [],
      createdBy := userId, createdAt := now, updatedAt := now }
  let blocks1 := db.blocks ++ [newBlock]
  match pageContent with
  | some pc =>
    match position with
    | some p =>
      match refIds pc.blocks with
      | none =>
        -- `new ObjectId(id)` throws on an embedded document: 500 after the insert
        ({ db with blocks := blocks1, nextId := db.nextId + 1 }, .internal)
      | some ids =>
        let currentBlocks :=
          sortByPos (blocks1.filter (fun b => b.pageId == pageId && ids.contains b.id))
        let blocks2 := currentBlocks.foldl (fun acc b =>
          if b.position ≥ p then
            updateFirst (fun x => x.id == b.id)
              (fun x => { x with position := b.position + 1, updatedAt := now }) acc
          else acc) blocks1
        let updatedBlocks := jsInsert pc.blocks p (BlockRef.id blockId)
        let contents' := updateFirst (fun c => c.pageId == pageId)
          (setContent (some updatedBlocks) (pc.version + 1) userId now) db.contents
        let created := (blocks2.find? (fun b => b.id == blockId)).getD newBlock
        ({ db with blocks := blocks2, contents := contents', nextId := db.nextId + 1 },
         .createdBlock created)
    | none =>
      let updatedBlocks := pc.blocks ++ [BlockRef.id blockId]
      let contents' := updateFirst (fun c => c.pageId == pageId)
        (setContent (some updatedBlocks) (pc.version + 1) userId now) db.contents
      ({ db with blocks := blocks1, contents := contents', nextId := db.nextId + 1 },
       .createdBlock newBlock)
  | none =>
    ({ db with
        blocks := blocks1,
        contents := db.contents ++
          [{ pageId := pageId, blocks := [BlockRef.id blockId], version := 1,
             lastEditedBy := userId, lastEditedAt := now }],
        nextId := db.nextId + 1 },
     .createdBlock newBlock)

/-- The empty document store. -/
def DB.empty : DB := { blocks := [], contents := [], history := [], templates := [], nextId := 0 }

/-- A sample block (id 0, page 1, position 0) for concrete witness stores. -/
def bSample : Block := ⟨0, 1, "text", "", [], [], 0, 7, 0, 0⟩

/-- A one-block page-1 store at version 1. -/
def dbOne : DB := ⟨[bSample], [⟨1, [BlockRef.id 0], 1, 7, 0⟩], [], [], 1⟩

/-- A page-1 store at version 2 whose version 1 is archived. -/
def dbHist : DB := ⟨[], [⟨1, [], 2, 7, 1⟩], [⟨1, 1, [BlockRef.id 0], 7, 1⟩], [], 1⟩

/-- The one-block store together with a one-entry template (id 5). -/
def dbTmpl : DB := ⟨[bSample], [⟨1, [BlockRef.id 0], 1, 7, 0⟩], [], [⟨5, [⟨"text", "x", [], []⟩]⟩], 1⟩

/-! ### updateBlock (blockController.js) -/

/-- The request body of `PUT /api/blocks/:id`: whatever fields the caller
supplies are `$set` verbatim; absent fields are untouched. -/
structure BlockPatch where
  pageId : Option Nat := none
  type : Option String := none
  content : Option String := none
  properties : Option (List (String × String)) := none
  children : Option (List Nat) := none
  position : Option Int := none
  createdBy : Option Nat := none
  createdAt : Option Nat := none
deriving Repr, DecidableEq

/-- `updateOne({_id}, {$set: updateData})` where `updateData` is the request
body plus the server-stamped `updatedAt`. -/
def applyPatch (b : Block) (p : BlockPatch) (now : Nat) : Block :=
  { b with
      pageId := p.pageId.getD b.pageId, type := p.type.getD b.type,
      content := p.content.getD b.content, properties := p.properties.getD b.properties,
      children := p.children.getD b.children, position := p.position.getD b.position,
      createdBy := p.createdBy.getD b.createdBy, createdAt := p.createdAt.getD b.createdAt,
      updatedAt := now }

/-- `PUT /api/blocks/:id` (after the permission check): merges the body into
the block, then bumps the version of the page-content record of the block's
*pre-update* pageId when one exists. -/
def updateBlock (db : DB) (userId blockId : Nat) (patch : BlockPatch) (now : Nat) : DB × Res :=
  match findBlock db blockId with
  | none => (db, .notFound)
  | some block =>
    let blocks' := updateFirst (fun b => b.id == blockId)
      (fun b => applyPatch b patch now) db.blocks
    let updatedBlock := (blocks'.find? (fun b => b.id == blockId)).getD (applyPatch block patch now)
    let contents' := match findContent db block.pageId with
      | some pc => updateFirst (fun c => c.pageId == block.pageId)
          (setContent none (pc.version + 1) userId now) db.contents
      | none => db.contents
    ({ db with blocks := blocks', contents := contents' }, .okBlock updatedBlock)

/-- `updateBlock` including the SQL permission gate it performs before
mutating: 404 when the block's page is unknown, 403 when the caller lacks an
OWNER/ADMIN/MEMBER role in the workspace owning the block's *current* page.
`pageWs` maps a page to its workspace; `canEdit` says whether the acting user
holds an editing role in a workspace. -/
def updateBlockChecked (db : DB) (pageWs : Nat → Option Nat) (canEdit : Nat → Bool)
    (userId blockId : Nat) (patch : BlockPatch) (now : Nat) : DB × Res :=
  match findBlock db blockId with
  | none => (db, .notFound)
  | some block =>
    match pageWs block.pageId with
    | none => (db, .notFound)
    | some ws =>
      if canEdit ws then updateBlock db userId blockId patch now
      else (db, .forbidden)

/-! ### deleteBlock (blockController.js) -/

/-- `DELETE /api/blocks/:id`: when the page has a content record, removes the
id from its list and bumps its version, then closes the position gap by
decrementing every block of the page whose position exceeds the deleted
block's, and finally deletes the block itself. -/
def deleteBlock (db : DB) (userId blockId : Nat) (now : Nat) : DB × Res :=
  match findBlock db blockId with
  | none => (db, .notFound)
  | some block =>
    let step1 : List Block × List PageContent :=
      match findContent db block.pageId with
      | some pc =>
        let updatedBlocks := pc.blocks.filter (fun r => !(refMatches r blockId))
        let contents' := updateFirst (fun c => c.pageId == block.pageId)
          (setContent (some updatedBlocks) (pc.version + 1) userId now) db.contents
        let snapshot := db.blocks.filter
          (fun b => b.pageId == block.pageId && b.position > block.position)
        let blocks' := snapshot.foldl (fun acc b =>
          updateFirst (fun x => x.id == b.id)
            (fun x => { x with position := b.position - 1 }) acc) db.blocks
        (blocks', contents')
      | none => (db.blocks, db.contents)
    let blocks2 := removeFirst (fun b => b.id == blockId) step1.1
    ({ db with blocks := blocks2, contents := step1.2 }, .okDeleted)

/-! ### updateBlockPosition (blockController.js) -/

/-- `PUT /api/blocks/:id/position`: validates the position against the block
count of the content record, no-ops when the position is unchanged, otherwise
rebuilds the sibling order (all blocks of the page sorted by position, the
moved block spliced at the new index), renumbers every sibling to its index
and rewrites the content list in that order, bumping the version. -/
def updateBlockPosition (db : DB) (userId blockId : Nat) (position : Int) (now : Nat) :
    DB × Res :=
  match findBlock db blockId with
  | none => (db, .notFound)
  | some block =>
    match findContent db block.pageId with
    | none => (db, .notFound)
    | some pc =>
      let totalBlocks := pc.blocks.length
      if position < 0 ∨ position ≥ (totalBlocks : Int) then (db, .badRequest)
      else if block.position == position then (db, .okPositionUnchanged)
      else
        let blocksToReorder := sortByPos (db.blocks.filter (fun b => b.pageId == block.pageId))
        let filteredBlocks := blocksToReorder.filter (fun b => !(b.id == blockId))
        let ordered := insertAt filteredBlocks position.toNat block
        let blocks' := ordered.enum.foldl (fun acc ib =>
          updateFirst (fun x => x.id == ib.2.id)
            (fun x => { x with position := (ib.1 : Int), updatedAt := now }) acc) db.blocks
        let updatedBlockIds := ordered.map (fun b => BlockRef.id b.id)
        let contents' := updateFirst (fun c => c.pageId == block.pageId)
          (setContent (some updatedBlockIds) (pc.version + 1) userId now) db.contents
        ({ db with blocks := blocks', contents := contents' }, .okPositionChanged)

/-! ### duplicateBlock (blockController.js) -/

/-- `POST /api/blocks/:id/duplicate`: inserts a clone at the original's
position + 1, shifts every other block of the page with a greater position up
by one, and—when the original's id occurs in the content list—splices the
clone's id right after it and bumps the version. -/
def duplicateBlock (db : DB) (userId blockId : Nat) (now : Nat) : DB × Res :=
  match findBlock db blockId with
  | none => (db, .notFound)
  | some block =>
    let newId := db.nextId
    let newBlock : Block :=
      { id := newId, pageId := block.pageId, type := block.type,
        content := block.content, properties := block.properties,
        position := block.position + 1, children := block.children,
        createdBy := userId, createdAt := now, updatedAt := now }
    let blocks1 := db.blocks ++ [newBlock]
    let snapshot := blocks1.filter
      (fun b => b.pageId == block.pageId && b.position > block.position && !(b.id == newId))
    let blocks2 := snapshot.foldl (fun acc b =>
      updateFirst (fun x => x.id == b.id)
        (fun x => { x with position := b.position + 1, updatedAt := now }) acc) blocks1
    let contents' :=
      match findContent db block.pageId with
      | some pc =>
        match pc.blocks.findIdx? (fun r => refMatches r blockId) with
        | some i =>
          updateFirst (fun c => c.pageId == block.pageId)
            (setContent (some (insertAt pc.blocks (i + 1) (BlockRef.id newId)))
              (pc.version + 1) userId now) db.contents
        | none => db.contents
      | none => db.contents
    let dup := (blocks2.find? (fun b => b.id == newId)).getD newBlock
    ({ db with blocks := blocks2, contents := contents', nextId := db.nextId + 1 },
     .createdBlock dup)

/-! ### updatePageContent (pageContentController.js) -/

/-- One element of the `blocks` array of `PUT /api/pages/:id/content`: a
block-shaped object, carrying `_id` when it denotes an existing block. -/
structure ReqBlock where
  id : Option Nat := none
  type : String := ""
  content : String := ""
  properties : List (String × String) := []
  children : List Nat := []
deriving Repr, DecidableEq

/-- The per-element loop of updatePageContent: stamps pageId/position/updatedAt
on each entry, inserts entries without `_id` as fresh blocks (plus
createdBy/createdAt) and `$set`s the fields of entries with `_id`; returns the
updated store, the collected id list in request order, and the id counter. -/
def upcProcess (pageId userId now : Nat) :
    List ReqBlock → Nat → Nat → List Block → List Block × List Nat × Nat
  | [], _, nid, bs => (bs, [], nid)
  | rb :: rest, i, nid, bs =>
    match rb.id with
    | none =>
      let nb : Block :=
        { id := nid, pageId := pageId, type := rb.type, content := rb.content,
          properties := rb.properties, children := rb.children, position := (i : Int),
          createdBy := userId, createdAt := now, updatedAt := now }
      let r := upcProcess pageId userId now rest (i + 1) (nid + 1) (bs ++ [nb])
      (r.1, nid :: r.2.1, r.2.2)
    | some bid =>
      let bs1 := updateFirst (fun x => x.id == bid)
        (fun x => { x with
            pageId := pageId, type := rb.type, content := rb.content,
            properties := rb.properties, children := rb.children,
            position := (i : Int), updatedAt := now }) bs
      let r := upcProcess pageId userId now rest (i + 1) nid bs1
      (r.1, bid :: r.2.1, r.2.2)

/-- `PUT /api/pages/:id/content` (replace-full-content): processes the request
blocks, archives the pre-mutation content record (its id list) into
page_history when one exists, then writes the content record with the
collected ids at version current + 1 (or creates it at version 1). -/
def updatePageContent (db : DB) (userId pageId : Nat) (reqBlocks : List ReqBlock) (now : Nat) :
    DB × Res :=
  let currentPageContent := findContent db pageId
  let nextVersion := match currentPageContent with
    | some pc => pc.version + 1
    | none => 1
  let proc := upcProcess pageId userId now reqBlocks 0 db.nextId db.blocks
  let history' := match currentPageContent with
    | some pc => db.history ++
        [{ pageId := pageId, version := pc.version, content := pc.blocks,
           editedBy := userId, editedAt := now }]
    | none => db.history
  let contents' := match currentPageContent with
    | some _ => updateFirst (fun c => c.pageId == pageId)
        (setContent (some (proc.2.1.map BlockRef.id)) nextVersion userId now) db.contents
    | none => db.contents ++
        [{ pageId := pageId, blocks := proc.2.1.map BlockRef.id, version := nextVersion,
           lastEditedBy := userId, lastEditedAt := now }]
  ({ db with blocks := proc.1, contents := contents', history := history', nextId := proc.2.2 },
   .okUpdated nextVersion)

/-! ### restorePageVersion (pageContentController.js) -/

/-- `POST /api/pages/:id/restore/:version`: 404 when the requested history
entry or the current content record is missing; otherwise appends the current
content (id list, current version) to page_history and overwrites the content
record with the entry's recorded content at version current + 1. -/
def restorePageVersion (db : DB) (userId pageId version : Nat) (now : Nat) : DB × Res :=
  match db.history.find? (fun h => h.pageId == pageId && h.version == version) with
  | none => (db, .notFound)
  | some entry =>
    match findContent db pageId with
    | none => (db, .notFound)
    | some pc =>
      let history' := db.history ++
        [{ pageId := pageId, version := pc.version, content := pc.blocks,
           editedBy := userId, editedAt := now }]
      let contents' := updateFirst (fun c => c.pageId == pageId)
        (setContent (some entry.content) (pc.version + 1) userId now) db.contents
      ({ db with history := history', contents := contents' },
       .okRestored (pc.version + 1) version)

/-! ### applyTemplate (favoritesController.js) -/

/-- `updateOne({pageId}, {$set: ...}, {upsert: true})` on page_contents. -/
def upsertContent (cs : List PageContent) (pageId : Nat) (f : PageContent → PageContent)
    (mk : PageContent) : List PageContent :=
  if cs.any (fun c => c.pageId == pageId) then updateFirst (fun c => c.pageId == pageId) f cs
  else cs ++ [mk]

/-- The clone loop of applyTemplate: one fresh block per template content
entry, ids counting up from `nid`, positions counting up from `start`,
stamped with the acting user and the clock. -/
def cloneTemplateBlocks (tcontent : List TemplateBlock) (pageId userId now nid : Nat)
    (start : Int) : List Block :=
  match tcontent with
  | [] => []
  | tb :: rest =>
    { id := nid, pageId := pageId, type := tb.type, content := tb.content,
      properties := tb.properties, children := tb.children, position := start,
      createdBy := userId, createdAt := now, updatedAt := now : Block }
      :: cloneTemplateBlocks rest pageId userId now (nid + 1) (start + 1)

/-- `POST /api/pages/:id/apply-template/:templateId`: 404 when the template's
content document is missing; archives the current blocks (as full documents)
into page_history when a content record exists; in overwrite mode deletes the
listed blocks and replaces the list with fresh clones of the template entries
at positions 0..n-1; in append mode clones the entries after the current list,
continuing positions after the last listed block's. -/
def applyTemplate (db : DB) (userId pageId templateId : Nat) (overwrite : Bool) (now : Nat) :
    DB × Res :=
  match db.templates.find? (fun t => t.id == templateId) with
  | none => (db, .notFound)
  | some tmpl =>
    let currentPageContent := findContent db pageId
    match currentPageContent with
    | some pc =>
      match refIds pc.blocks with
      | none => (db, .internal)
      | some ids =>
        let currentBlocks := db.blocks.filter (fun b => ids.contains b.id)
        let history' := db.history ++
          [{ pageId := pageId, version := pc.version, content := currentBlocks.map BlockRef.doc,
             editedBy := userId, editedAt := now }]
        if overwrite then
          let blocksAfterDelete := db.blocks.filter (fun b => !(ids.contains b.id))
          let clones := cloneTemplateBlocks tmpl.content pageId userId now db.nextId 0
          let newIds := clones.map (fun b => BlockRef.id b.id)
          let contents' := upsertContent db.contents pageId
            (setContent (some newIds) (pc.version + 1) userId now)
            { pageId := pageId, blocks := newIds, version := pc.version + 1,
              lastEditedBy := userId, lastEditedAt := now }
          ({ db with
              blocks := blocksAfterDelete ++ clones, contents := contents',
              history := history', nextId := db.nextId + tmpl.content.length },
           .okTemplateApplied)
        else
          let startPosition : Int := match pc.blocks.getLast? with
            | none => 0
            | some r => match refOid r with
              | none => 0
              | some n => match db.blocks.find? (fun b => b.id == n) with
                | some lb => lb.position + 1
                | none => 0
          let clones := cloneTemplateBlocks tmpl.content pageId userId now db.nextId startPosition
          let newList := pc.blocks ++ clones.map (fun b => BlockRef.id b.id)
          let contents' := upsertContent db.contents pageId
            (setContent (some newList) (pc.version + 1) userId now)
            { pageId := pageId, blocks := newList, version := pc.version + 1,
              lastEditedBy := userId, lastEditedAt := now }
          ({ db with
              blocks := db.blocks ++ clones, contents := contents',
              history := history', nextId := db.nextId + tmpl.content.length },
           .okTemplateApplied)
    | none =>
      let clones := cloneTemplateBlocks tmpl.content pageId userId now db.nextId 0
      let newIds := clones.map (fun b => BlockRef.id b.id)
      let contents' := upsertContent db.contents pageId
        (setContent (some newIds) 1 userId now)
        { pageId := pageId, blocks := newIds, version := 1,
          lastEditedBy := userId, lastEditedAt := now }
      ({ db with
          blocks := db.blocks ++ clones, contents := contents',
          nextId := db.nextId + tmpl.content.length },
       .okTemplateApplied)

/-! ### getPageVersion (pageContentController.js, read path) -/

/-- `GET /api/pages/:id/history/:version`: `none` models the 404 when no
history entry exists at that exact version; otherwise the snapshot's entries
are resolved against the *current* blocks collection in snapshot order, and
entries that no longer resolve (deleted blocks, or embedded documents whose
stringification matches nothing) are silently dropped. -/
def getPageVersion (db : DB) (pageId version : Nat) : Option (List Block) :=
  match db.history.find? (fun h => h.pageId == pageId && h.version == version) with
  | none => none
  | some entry =>
    some (entry.content.filterMap (fun r => match refOid r with
      | some n => db.blocks.find? (fun b => b.id == n)
      | none => none))

/-! ### Operation sequences

One request against the engine, with the acting user and arguments baked in;
`Op.step` dispatches to the controller functions above and `runFrom` plays a
request sequence with an increasing clock. -/

inductive Op where
  | create (userId pageId : Nat) (ty : String) (content : Option String)
      (position : Option Int) (properties : Option (List (String × String)))
  | update (userId blockId : Nat) (patch : BlockPatch)
  | delete (userId blockId : Nat)
  | move (userId blockId : Nat) (position : Int)
  | dup (userId blockId : Nat)
  | replace (userId pageId : Nat) (blocks : List ReqBlock)
  | restore (userId pageId version : Nat)
  | applyTmpl (userId pageId templateId : Nat) (overwrite : Bool)
deriving Repr, DecidableEq

/-- Execute one request at time `now`. -/
def Op.step (db : DB) (op : Op) (now : Nat) : DB × Res :=
  match op with
  | .create u p ty c pos props => createBlock db u p ty c pos props now
  | .update u b patch => updateBlock db u b patch now
  | .delete u b => deleteBlock db u b now
  | .move u b pos => updateBlockPosition db u b pos now
  | .dup u b => duplicateBlock db u b now
  | .replace u p bs => updatePageContent db u p bs now
  | .restore u p v => restorePageVersion db u p v now
  | .applyTmpl u p t ow => applyTemplate db u p t ow now

/-- Play a request sequence starting from `db` at time `t`. -/
def runFrom (db : DB) (t : Nat) : List Op → DB
  | [] => db
  | op :: ops => runFrom (op.step db t).1 (t + 1) ops

/-- Play a request sequence against the empty store. -/
def run (ops : List Op) : DB := runFrom DB.empty 0 ops

/-! ## The position-contiguity invariant -/

/-- The blocks of `l`, in order, carry positions `k, k+1, k+2, ...`. -/
def PosFrom : Nat → List Block → Prop
  | _, [] => True
  | k, b :: l => b.position = (k : Int) ∧ PosFrom (k + 1) l

/-- Coherence of one content record with the block store: the listed refs are
exactly the ids of a run `bl` of blocks in display order, whose positions are
0, 1, ..., n-1, and which is a permutation of the page's blocks. -/
def ContentShape (db : DB) (p : Nat) (pc : PageContent) : Prop :=
  ∃ bl : List Block,
    pc.blocks = bl.map (fun x => BlockRef.id x.id)
    ∧ PosFrom 0 bl
    ∧ bl.Perm (pageBlocks db p)

/-- The representation invariant maintained by the create/delete/move/dup
fragment of the engine: fresh ids below the generator, globally distinct ids,
no stray blocks on pages without a content record, and a coherent content
record for every page that has one. -/
structure Inv (db : DB) : Prop where
  fresh : ∀ x ∈ db.blocks, x.id < db.nextId
  nodup : (db.blocks.map (fun x => x.id)).Nodup
  orphanFree : ∀ p, findContent db p = none → pageBlocks db p = []
  shape : ∀ p pc, findContent db p = some pc → ContentShape db p pc

/-- The operations claim C4 quantifies over, with createBlock's requested
position restricted to [0, current block count] — the amendment forced by
the counterexample. -/
def C4Ok (db : DB) : Op → Prop
  | .create _ p _ _ pos _ =>
      match pos with
      | none => True
      | some q => 0 ≤ q ∧ q ≤ (((findContent db p).map (fun pc => pc.blocks.length)).getD 0 : Nat)
  | .delete _ _ => True
  | .move _ _ _ => True
  | .dup _ _ => True
  | _ => False

/-- A request sequence all of whose steps satisfy `C4Ok` in the state where
they execute (clock threaded as in `runFrom`). -/
def C4Run : DB → Nat → List Op → Prop
  | _, _, [] => True
  | db, t, op :: ops => C4Ok db op ∧ C4Run (op.step db t).1 (t + 1) ops

/-! ## Theorems -/

theorem insertAt_zero (l : List α) (x : α) : insertAt l 0 x = x :: l := by
  cases l <;> rfl

theorem insertAt_succ_cons (a : α) (l : List α) (n : Nat) (x : α) :
    insertAt (a :: l) (n + 1) x = a :: insertAt l n x := rfl

/-! ## Lemmas about the store primitives -/

theorem updateFirst_of_not_mem {p : α → Bool} {f : α → α} {l : List α}
    (h : ∀ a ∈ l, p a = false) : updateFirst p f l = l := by
  induction l with
  | nil => rfl
  | cons a l ih =>
    simp only [updateFirst, h a (List.mem_cons_self a l)]
    simp only [Bool.false_eq_true, if_false, List.cons.injEq, true_and]
    exact ih (fun x hx => h x (List.mem_cons_of_mem a hx))

theorem map_id_of_not_match {k : Nat} {f : Block → Block} {l : List Block}
    (h : ∀ x ∈ l, (x.id == k) = false) :
    l.map (fun x => if x.id == k then f x else x) = l := by
  induction l with
  | nil => rfl
  | cons a l ih =>
    simp only [List.map_cons, h a (List.mem_cons_self a l), Bool.false_eq_true, if_false,
      List.cons.injEq, true_and]
    exact ih (fun x hx => h x (List.mem_cons_of_mem a hx))

/-- With globally distinct block ids, `updateOne` by id is an elementwise map. -/
theorem updateFirst_id_eq_map {k : Nat} (f : Block → Block) {bs : List Block}
    (hnod : (bs.map (fun b => b.id)).Nodup) :
    updateFirst (fun x => x.id == k) f bs = bs.map (fun x => if x.id == k then f x else x) := by
  induction bs with
  | nil => rfl
  | cons a bs ih =>
    simp only [List.map_cons, List.nodup_cons] at hnod
    by_cases ha : a.id = k
    · simp only [updateFirst, List.map_cons, ha, beq_self_eq_true, if_true]
      have : ∀ x ∈ bs, (x.id == k) = false := by
        intro x hx
        have : x.id ≠ k := by
          intro hxk
          exact hnod.1 (by rw [ha, ← hxk]; exact List.mem_map_of_mem (fun b => b.id) hx)
        simpa using this
      rw [map_id_of_not_match this]
    · have ha' : (a.id == k) = false := by simpa using ha
      simp only [updateFirst, List.map_cons, ha', Bool.false_eq_true, if_false,
        List.cons.injEq, true_and]
      exact ih hnod.2

theorem updateFirst_map_key {p : α → Bool} {f : α → α} (g : α → β)
    (hpres : ∀ a, g (f a) = g a) (l : List α) :
    (updateFirst p f l).map g = l.map g := by
  induction l with
  | nil => rfl
  | cons a l ih =>
    by_cases h : p a
    · simp [updateFirst, h, hpres a]
    · simp [updateFirst, h, ih]

theorem removeFirst_sublist (p : α → Bool) (l : List α) : (removeFirst p l).Sublist l := by
  induction l with
  | nil => simp [removeFirst]
  | cons a l ih =>
    by_cases h : p a
    · simp only [removeFirst, h, if_true]
      exact List.sublist_cons_self a l
    · simpa [removeFirst, h] using ih.cons₂ a

theorem removeFirst_of_head {p : α → Bool} {a : α} {l : List α} (h : p a = true) :
    removeFirst p (a :: l) = l := by
  simp [removeFirst, h]

theorem insertAt_map (g : α → β) (l : List α) (n : Nat) (x : α) :
    (insertAt l n x).map g = insertAt (l.map g) n (g x) := by
  induction l generalizing n with
  | nil => cases n <;> rfl
  | cons a l ih =>
    cases n with
    | zero => rfl
    | succ n => simp [insertAt, ih]

theorem insertAt_perm (l : List α) (n : Nat) (x : α) : (insertAt l n x).Perm (x :: l) := by
  induction l generalizing n with
  | nil => cases n <;> rfl
  | cons a l ih =>
    cases n with
    | zero => rfl
    | succ n => exact ((ih n).cons a).trans (List.Perm.swap x a l)

theorem insertAt_length (l : List α) (n : Nat) (x : α) :
    (insertAt l n x).length = l.length + 1 := by
  have := (insertAt_perm l n x).length_eq
  simpa using this

theorem insertByPos_perm (b : Block) (l : List Block) : (insertByPos b l).Perm (b :: l) := by
  induction l with
  | nil => rfl
  | cons a l ih =>
    by_cases h : b.position ≤ a.position
    · simp [insertByPos, h]
    · have step : (a :: insertByPos b l).Perm (b :: a :: l) :=
        (ih.cons a).trans (List.Perm.swap b a l)
      simpa [insertByPos, h] using step

theorem sortByPos_perm (l : List Block) : (sortByPos l).Perm l := by
  induction l with
  | nil => rfl
  | cons a l ih => exact (insertByPos_perm a (sortByPos l)).trans (ih.cons a)

theorem mem_sortByPos {b : Block} {l : List Block} : b ∈ sortByPos l ↔ b ∈ l :=
  (sortByPos_perm l).mem_iff

/-- The snapshot-loop pattern of the controllers: a `for` loop over a
pre-fetched list of documents issuing one `updateOne` by id per element is,
when the collection has distinct ids and the loop keys are distinct, an
elementwise map over the collection. -/
theorem foldl_updateFirst_eq_map {α : Type} (S : List α) (key : α → Nat) (G : α → Block → Block)
    (bs : List Block) (hbs : (bs.map (fun b => b.id)).Nodup)
    (hS : (S.map key).Nodup)
    (hG : ∀ a x, (G a x).id = x.id) :
    S.foldl (fun acc a => updateFirst (fun x => x.id == key a) (G a) acc) bs
      = bs.map (fun x => match S.find? (fun a => key a == x.id) with
          | some a => G a x
          | none => x) := by
  induction S generalizing bs with
  | nil => simp
  | cons a S ih =>
    simp only [List.map_cons, List.nodup_cons] at hS
    simp only [List.foldl_cons]
    rw [updateFirst_id_eq_map (G a) hbs]
    have hbs1nod :
        ((bs.map (fun x => if x.id == key a then G a x else x)).map (fun b => b.id)).Nodup := by
      rw [List.map_map]
      have hco : ((fun b => b.id) ∘ fun x => if x.id == key a then G a x else x)
          = fun (b : Block) => b.id := by
        funext x
        by_cases h : (x.id == key a) = true <;> simp [Function.comp, h, hG]
      rw [hco]
      exact hbs
    rw [ih _ hbs1nod hS.2, List.map_map]
    apply List.map_congr_left
    intro x _
    simp only [Function.comp]
    by_cases h : x.id = key a
    · have h1 : (x.id == key a) = true := by simp [h]
      have h2 : (key a == x.id) = true := by simp [h]
      have hnone : S.find? (fun a' => key a' == x.id) = none := by
        rw [List.find?_eq_none]
        intro a' ha'
        have : key a' ≠ x.id := by
          intro hk
          exact hS.1 (by rw [← h, ← hk]; exact List.mem_map_of_mem key ha')
        simpa using this
      simp only [h1, if_true, hG, hnone, List.find?, h2]
    · have h1 : (x.id == key a) = false := by simpa using h
      have h2 : (key a == x.id) = false := by simpa using fun hk => h hk.symm
      simp only [h1, Bool.false_eq_true, if_false, List.find?, h2]

/-- Restricting the loop body by a snapshot-field condition is looping over
the filtered snapshot. -/
theorem foldl_if_eq_foldl_filter {α β : Type} (S : List α) (q : α → Bool) (step : β → α → β)
    (init : β) :
    S.foldl (fun acc a => if q a then step acc a else acc) init
      = (S.filter q).foldl step init := by
  induction S generalizing init with
  | nil => rfl
  | cons a S ih =>
    by_cases h : q a
    · simp [List.filter_cons, h, ih]
    · simp [List.filter_cons, h, ih]

/-- Two members of an id-distinct collection with the same id are equal. -/
theorem eq_of_mem_of_id_eq {bs : List Block} (hbs : (bs.map (fun b => b.id)).Nodup)
    {x y : Block} (hx : x ∈ bs) (hy : y ∈ bs) (h : x.id = y.id) : x = y :=
  List.inj_on_of_nodup_map hbs hx hy h

/-- Looking a member's id up in a snapshot drawn from the same id-distinct
collection finds the member itself (or nothing). -/
theorem find?_id_self {S bs : List Block} {x : Block}
    (hbs : (bs.map (fun b => b.id)).Nodup) (hsub : ∀ b ∈ S, b ∈ bs) (hx : x ∈ bs) :
    S.find? (fun b => b.id == x.id) = if x ∈ S then some x else none := by
  induction S with
  | nil => simp
  | cons b S ih =>
    by_cases h : b.id = x.id
    · have hbx : b = x := eq_of_mem_of_id_eq hbs (hsub b (List.mem_cons_self b S)) hx h
      simp [List.find?, h, hbx]
    · have h' : (b.id == x.id) = false := by simpa using h
      have hxb : x ≠ b := fun hh => h (hh ▸ rfl)
      simp only [List.find?, h', List.mem_cons]
      rw [ih (fun c hc => hsub c (List.mem_cons_of_mem b hc))]
      simp [hxb.symm, fun hh : x = b => hxb hh]

theorem find?_updateFirst_pos {p : α → Bool} {f : α → α} {l : List α} {a : α}
    (h : l.find? p = some a) (hf : ∀ x, p x = true → p (f x) = true) :
    (updateFirst p f l).find? p = some (f a) := by
  induction l with
  | nil => simp at h
  | cons b l ih =>
    by_cases hb : p b
    · have hab : b = a := by simpa [List.find?, hb] using h
      subst hab
      simp [updateFirst, List.find?, hb, hf b hb]
    · have hb' : p b = false := by simpa using hb
      have h' : l.find? p = some a := by simpa [List.find?, hb'] using h
      simp [updateFirst, List.find?, hb', ih h']

theorem find?_updateFirst_of_disjoint {p q : α → Bool} {f : α → α} {l : List α}
    (hq : ∀ x, q (f x) = q x) (hne : ∀ x, p x = true → q x = false) :
    (updateFirst p f l).find? q = l.find? q := by
  induction l with
  | nil => rfl
  | cons b l ih =>
    by_cases hb : p b
    · have hqb : q b = false := hne b hb
      simp [updateFirst, List.find?, hb, hq b, hqb]
    · have hb' : p b = false := by simpa using hb
      by_cases hqb : q b
      · simp [updateFirst, List.find?, hb', hqb]
      · have hqb' : q b = false := by simpa using hqb
        simp [updateFirst, List.find?, hb', hqb', ih]

theorem find?_append_of_none {p : α → Bool} {l₁ l₂ : List α} (h : l₁.find? p = none) :
    (l₁ ++ l₂).find? p = l₂.find? p := by
  induction l₁ with
  | nil => rfl
  | cons a l₁ ih =>
    by_cases ha : p a
    · simp [List.find?, ha] at h
    · have ha' : p a = false := by simpa using ha
      have h' : l₁.find? p = none := by simpa [List.find?, ha'] using h
      simp [List.find?, ha', ih h']

theorem PosFrom_append {k : Nat} {l₁ l₂ : List Block} :
    PosFrom k (l₁ ++ l₂) ↔ PosFrom k l₁ ∧ PosFrom (k + l₁.length) l₂ := by
  induction l₁ generalizing k with
  | nil => simp [PosFrom]
  | cons b l₁ ih =>
    simp only [List.cons_append, PosFrom, List.length_cons, List.append_eq]
    rw [ih]
    constructor
    · rintro ⟨hb, h1, h2⟩
      refine ⟨⟨hb, h1⟩, ?_⟩
      have heq : k + 1 + l₁.length = k + (l₁.length + 1) := by omega
      rwa [← heq]
    · rintro ⟨⟨hb, h1⟩, h2⟩
      refine ⟨hb, h1, ?_⟩
      have heq : k + 1 + l₁.length = k + (l₁.length + 1) := by omega
      rwa [heq]

theorem PosFrom_le_of_mem {k : Nat} {l : List Block} (h : PosFrom k l) {b : Block}
    (hb : b ∈ l) : (k : Int) ≤ b.position := by
  induction l generalizing k with
  | nil => simp at hb
  | cons a l ih =>
    rcases List.mem_cons.mp hb with rfl | hb'
    · simp [h.1]
    · have := ih h.2 hb'
      omega

theorem PosFrom_map_bump {g : Block → Block} (hg : ∀ b, (g b).position = b.position + 1)
    {k : Nat} {l : List Block} (h : PosFrom k l) : PosFrom (k + 1) (l.map g) := by
  induction l generalizing k with
  | nil => trivial
  | cons b l ih =>
    refine ⟨?_, ih h.2⟩
    rw [hg b, h.1]
    push_cast
    ring

theorem PosFrom_map_dec {g : Block → Block} (hg : ∀ b, (g b).position = b.position - 1)
    {k : Nat} {l : List Block} (h : PosFrom (k + 1) l) : PosFrom k (l.map g) := by
  induction l generalizing k with
  | nil => trivial
  | cons b l ih =>
    refine ⟨?_, ih h.2⟩
    rw [hg b, h.1]
    push_cast
    ring

theorem PosFrom_map_congr {g g' : Block → Block} {l : List Block}
    (h : ∀ b ∈ l, g b = g' b) : l.map g = l.map g' :=
  List.map_congr_left h

theorem PosFrom_map_position {l : List Block} {k : Nat} (h : PosFrom k l) :
    l.map (fun b => b.position) = (List.range l.length).map (fun i => ((k + i : Nat) : Int)) := by
  induction l generalizing k with
  | nil => rfl
  | cons b l ih =>
    simp only [List.map_cons, List.length_cons, List.range_succ_eq_map, List.map_map]
    refine congrArg₂ _ (by simpa using h.1) ?_
    rw [ih h.2]
    apply List.map_congr_left
    intro i _
    simp only [Function.comp]
    congr 1
    omega

/-- Inserting a block with position `q = k + j` at index `j` of a contiguous
run whose elements at or above position `q` have been shifted up by one yields
a contiguous run again. -/
theorem PosFrom_insert_shift {g : Block → Block} (hg : ∀ b, (g b).position = b.position + 1) :
    ∀ (j : Nat) (l : List Block) (k : Nat) (q : Int) (nb : Block),
      q = ((k + j : Nat) : Int) → nb.position = q → j ≤ l.length → PosFrom k l →
      PosFrom k (insertAt (l.map (fun b => if q ≤ b.position then g b else b)) j nb) := by
  intro j
  induction j with
  | zero =>
    intro l k q nb hq hnb _ hl
    have hq' : q = (k : Int) := by simpa using hq
    have hmap : l.map (fun b => if q ≤ b.position then g b else b) = l.map g := by
      apply List.map_congr_left
      intro b hb
      have hge := PosFrom_le_of_mem hl hb
      rw [if_pos (by omega)]
    rw [hmap, insertAt_zero]
    exact ⟨by rw [hnb, hq'], PosFrom_map_bump hg hl⟩
  | succ j ih =>
    intro l k q nb hq hnb hj hl
    match l with
    | [] => simp at hj
    | b :: l =>
      have hb : b.position = (k : Int) := hl.1
      have hcond : ¬ q ≤ b.position := by
        rw [hb, hq]
        push_cast
        omega
      simp only [List.map_cons, if_neg hcond, insertAt]
      refine ⟨hb, ?_⟩
      exact ih l (k + 1) q nb (by rw [hq]; push_cast; ring) hnb (by simpa using hj) hl.2

/-- Renumbering a list to its own indices yields a contiguous run. -/
theorem PosFrom_enumFrom {g : Nat → Block → Block} (hg : ∀ i b, (g i b).position = (i : Int)) :
    ∀ (l : List Block) (k : Nat), PosFrom k ((l.enumFrom k).map (fun ib => g ib.1 ib.2)) := by
  intro l
  induction l with
  | nil => intro k; trivial
  | cons b l ih => intro k; exact ⟨hg k b, ih (k + 1)⟩

theorem enumFrom_find_of_getElem :
    ∀ (l : List Block) (k i : Nat) (h : i < l.length), (l.map (fun b => b.id)).Nodup →
      (l.enumFrom k).find? (fun ib => ib.2.id == l[i].id) = some (k + i, l[i]) := by
  intro l
  induction l with
  | nil => intro k i h; simp at h
  | cons b l ih =>
    intro k i h hnod
    simp only [List.map_cons, List.nodup_cons] at hnod
    match i with
    | 0 => simp [List.enumFrom, List.find?]
    | i + 1 =>
      have hi : i < l.length := by simpa using h
      have hx : (b :: l)[i + 1] = l[i] := by simp
      have hne : (b.id == l[i].id) = false := by
        have : b.id ≠ l[i].id := by
          intro hid
          exact hnod.1 (hid ▸ List.mem_map_of_mem (fun b => b.id) (l.getElem_mem hi))
        simpa using this
      simp only [List.enumFrom, List.find?, hx, hne]
      have harith : k + 1 + i = k + (i + 1) := by omega
      rw [ih (k + 1) i hi hnod.2, harith]

/-! ## BlockRef computations -/

theorem refIds_map_id (l : List Block) :
    refIds (l.map (fun b => BlockRef.id b.id)) = some (l.map (fun b => b.id)) := by
  induction l with
  | nil => rfl
  | cons b l ih => simp [refIds, refOid, ih]

theorem refMatches_id (n t : Nat) : refMatches (BlockRef.id n) t = (n == t) := rfl

theorem findIdx?_append_first {p : α → Bool} :
    ∀ (l₁ : List α) (a : α) (l₂ : List α) (i : Nat), (∀ x ∈ l₁, p x = false) → p a = true →
      (l₁ ++ a :: l₂).findIdx? p i = some (i + l₁.length) := by
  intro l₁
  induction l₁ with
  | nil =>
    intro a l₂ i _ ha
    simp [ha]
  | cons b l₁ ih =>
    intro a l₂ i hfalse ha
    have hb : p b = false := hfalse b (List.mem_cons_self b l₁)
    simp only [List.cons_append, List.findIdx?_cons, hb, Bool.false_eq_true, if_false]
    rw [ih a l₂ (i + 1) (fun x hx => hfalse x (List.mem_cons_of_mem b hx)) ha]
    congr 1
    simp only [List.length_cons]
    omega

/-- Updating the page's own content record is visible to a subsequent
`findOne({pageId})`. -/
theorem findContent_updateFirst_set {cs : List PageContent} {p : Nat} {pc : PageContent}
    (h : cs.find? (fun c => c.pageId == p) = some pc) {bl : Option (List BlockRef)}
    {v u now : Nat} :
    (updateFirst (fun c => c.pageId == p) (setContent bl v u now) cs).find?
        (fun c => c.pageId == p) = some (setContent bl v u now pc) :=
  find?_updateFirst_pos h (fun _ hx => hx)

/-- Updating the content record of one page does not change lookups of
another page. -/
theorem findContent_updateFirst_other {cs : List PageContent} {p q : Nat} (hpq : p ≠ q)
    (f : PageContent → PageContent) (hf : ∀ c, (f c).pageId = c.pageId) :
    (updateFirst (fun c => c.pageId == p) f cs).find? (fun c => c.pageId == q)
      = cs.find? (fun c => c.pageId == q) := by
  apply find?_updateFirst_of_disjoint
  · intro c
    rw [hf c]
  · intro c hc
    have : c.pageId = p := by simpa using hc
    simp [this, hpq]

theorem findContent_append_singleton {cs : List PageContent} {p : Nat}
    (h : cs.find? (fun c => c.pageId == p) = none) (c : PageContent) :
    (cs ++ [c]).find? (fun x => x.pageId == p)
      = if c.pageId == p then some c else none := by
  rw [find?_append_of_none h]
  by_cases hc : c.pageId = p
  · simp [List.find?, hc]
  · have hc' : (c.pageId == p) = false := by simpa using hc
    simp [List.find?, hc']

theorem any_eq_false_of_find?_none {p : α → Bool} {l : List α} (h : l.find? p = none) :
    l.any p = false := by
  rw [List.find?_eq_none] at h
  simpa using h

/-- A snapshot loop of id-keyed updates whose body preserves a selector
leaves that selector's image of the collection unchanged. -/
theorem foldl_updateFirst_map_sel {α β : Type} (S : List α) (key : α → Nat)
    (G : α → Block → Block) (sel : Block → β) (bs : List Block)
    (hG : ∀ a x, sel (G a x) = sel x) :
    (S.foldl (fun acc a => updateFirst (fun x => x.id == key a) (G a) acc) bs).map sel
      = bs.map sel := by
  induction S generalizing bs with
  | nil => rfl
  | cons a S ih =>
    simp only [List.foldl_cons]
    rw [ih, updateFirst_map_key sel (hG a)]

/-- An element not matched by the filter survives `updateOne` untouched. -/
theorem mem_updateFirst_of_not {p : α → Bool} {f : α → α} {l : List α} {x : α}
    (hx : x ∈ l) (hpx : p x = false) : x ∈ updateFirst p f l := by
  induction l with
  | nil => simp at hx
  | cons a l ih =>
    rcases List.mem_cons.mp hx with rfl | hx'
    · simp [updateFirst, hpx]
    · by_cases ha : p a
      · simp [updateFirst, ha, hx']
      · have ha' : p a = false := by simpa using ha
        simp only [updateFirst, ha', Bool.false_eq_true, if_false, List.mem_cons]
        exact Or.inr (ih hx')

/-- Appending a block whose id is fresh keeps the id column duplicate-free. -/
theorem nodup_ids_append_fresh {bs : List Block} {nb : Block}
    (hnod : (bs.map (fun x => x.id)).Nodup) (hid : ∀ x ∈ bs, x.id ≠ nb.id) :
    ((bs ++ [nb]).map (fun x => x.id)).Nodup := by
  rw [List.map_append, List.nodup_append]
  refine ⟨hnod, List.nodup_singleton _, ?_⟩
  intro n hn
  simp only [List.mem_map] at hn
  obtain ⟨x, hx, rfl⟩ := hn
  simpa using (hid x hx)

theorem find?_ext {α : Type} (q : α → Bool) {p : α → Bool} (l : List α)
    (h : ∀ x, p x = q x) : l.find? p = l.find? q := by
  induction l with
  | nil => rfl
  | cons a l ih => simp only [List.find?, h a, ih]

/-- After a snapshot loop of id-keyed updates over a store ending in a block
with a fresh id, looking that id up still finds that block, untouched. -/
theorem foldl_updateFirst_find_fresh {G : Block → Block → Block}
    {bs : List Block} {nb : Block} {n : Nat} {S : List Block}
    (hn : nb.id = n)
    (hnod : ((bs ++ [nb]).map (fun x => x.id)).Nodup)
    (hsnod : (S.map (fun x => x.id)).Nodup)
    (hSn : ∀ a ∈ S, (a.id == n) = false)
    (hbsn : ∀ x ∈ bs, x.id ≠ n)
    (hGid : ∀ a x, (G a x).id = x.id) :
    (S.foldl (fun acc a => updateFirst (fun x => x.id == a.id) (G a) acc) (bs ++ [nb])).find?
        (fun x => x.id == n) = some nb := by
  rw [foldl_updateFirst_eq_map S (fun a => a.id) G _ hnod hsnod hGid]
  rw [List.find?_map]
  rw [find?_ext (fun x => x.id == n)]
  · have hnone : bs.find? (fun x => x.id == n) = none := by
      rw [List.find?_eq_none]
      intro x hx
      simpa using hbsn x hx
    have hfind_nb : [nb].find? (fun x => x.id == n) = some nb := by
      simp [List.find?, hn]
    rw [List.find?_append, hnone, Option.none_or, hfind_nb]
    have hSnone : S.find? (fun a => a.id == nb.id) = none := by
      rw [List.find?_eq_none]
      intro a ha
      rw [hn]
      simp [hSn a ha]
    simp only [Option.map_some']
    rw [hSnone]
  · intro x
    simp only [Function.comp]
    split
    · rename_i a ha
      rw [hGid]
    · rfl

theorem mem_cloneTemplateBlocks {tc : List TemplateBlock} {p u now nid : Nat} {start : Int}
    {x : Block} (hx : x ∈ cloneTemplateBlocks tc p u now nid start) :
    x.pageId = p ∧ x.createdBy = u ∧ nid ≤ x.id ∧ x.id < nid + tc.length := by
  induction tc generalizing nid start with
  | nil => simp [cloneTemplateBlocks] at hx
  | cons tb rest ih =>
    rcases List.mem_cons.mp hx with rfl | hx'
    · refine ⟨rfl, rfl, Nat.le_refl _, ?_⟩
      simp only [List.length_cons]
      omega
    · obtain ⟨h1, h2, h3, h4⟩ := ih hx'
      refine ⟨h1, h2, by omega, ?_⟩
      simp only [List.length_cons]
      omega

theorem cloneTemplateBlocks_map_id (tc : List TemplateBlock) (p u now : Nat) :
    ∀ (nid : Nat) (start : Int),
      (cloneTemplateBlocks tc p u now nid start).map (fun x => x.id)
        = (List.range tc.length).map (fun j => nid + j) := by
  induction tc with
  | nil => intro nid start; rfl
  | cons tb rest ih =>
    intro nid start
    simp only [cloneTemplateBlocks, List.map_cons, List.length_cons,
      List.range_succ_eq_map, List.map_map]
    rw [ih (nid + 1) (start + 1)]
    refine congrArg₂ _ (by omega) ?_
    apply List.map_congr_left
    intro j _
    simp only [Function.comp]
    omega

theorem cloneTemplateBlocks_map_position (tc : List TemplateBlock) (p u now : Nat) :
    ∀ (nid : Nat) (start : Int),
      (cloneTemplateBlocks tc p u now nid start).map (fun x => x.position)
        = (List.range tc.length).map (fun (j : Nat) => start + (j : Int)) := by
  induction tc with
  | nil => intro nid start; rfl
  | cons tb rest ih =>
    intro nid start
    simp only [cloneTemplateBlocks, List.map_cons, List.length_cons,
      List.range_succ_eq_map, List.map_map]
    rw [ih (nid + 1) (start + 1)]
    refine congrArg₂ _ (by simp) ?_
    apply List.map_congr_left
    intro j _
    simp only [Function.comp]
    push_cast
    ring

/-! ## Claim C1 -/

/-- C1: claimed invariant — after any sequence of successful mutations the
History Ledger holds an entry (pageId, v) for every v in [1, V-1].  Refuted:
two successful createBlock calls take a fresh page to version 2 while the
ledger stays empty, so no entry for version 1 exists.  Block-level mutations
never archive. -/
theorem C1_counterexample :
    (findContent (run [.create 7 1 "text" none none none, .create 7 1 "text" none none none]) 1).map
        (fun pc => pc.version) = some 2 ∧
    ¬ ∃ h ∈ (run [.create 7 1 "text" none none none, .create 7 1 "text" none none none]).history,
        h.pageId = 1 ∧ h.version = 1 := by
  decide

/-- C1 (amended): only replacePageContent, restorePageVersion and
applyTemplate archive the pre-mutation snapshot into the History Ledger, each
keyed by the superseded version; createBlock, updateBlock, deleteBlock,
updateBlockPosition and duplicateBlock leave the ledger untouched even though
they bump the version, so the ledger can have gaps below the current
version. -/
theorem C1_amended :
    (∀ db u p ty c pos props now, ((createBlock db u p ty c pos props now).1).history = db.history)
    ∧ (∀ db u b patch now, ((updateBlock db u b patch now).1).history = db.history)
    ∧ (∀ db u b now, ((deleteBlock db u b now).1).history = db.history)
    ∧ (∀ db u b pos now, ((updateBlockPosition db u b pos now).1).history = db.history)
    ∧ (∀ db u b now, ((duplicateBlock db u b now).1).history = db.history)
    ∧ (∀ db u p rbs now pc, findContent db p = some pc →
        ((updatePageContent db u p rbs now).1).history
          = db.history ++
              [{ pageId := p, version := pc.version, content := pc.blocks,
                 editedBy := u, editedAt := now }])
    ∧ (∀ db u p v now entry pc,
        db.history.find? (fun h => h.pageId == p && h.version == v) = some entry →
        findContent db p = some pc →
        ((restorePageVersion db u p v now).1).history
          = db.history ++
              [{ pageId := p, version := pc.version, content := pc.blocks,
                 editedBy := u, editedAt := now }])
    ∧ (∀ db u p t ow now tmpl pc ids,
        db.templates.find? (fun x => x.id == t) = some tmpl →
        findContent db p = some pc → refIds pc.blocks = some ids →
        ((applyTemplate db u p t ow now).1).history
          = db.history ++
              [{ pageId := p, version := pc.version,
                 content := (db.blocks.filter (fun b => ids.contains b.id)).map BlockRef.doc,
                 editedBy := u, editedAt := now }]) := by
  refine ⟨?_, ?_, ?_, ?_, ?_, ?_, ?_, ?_⟩
  · intro db u p ty c pos props now
    unfold createBlock
    dsimp only
    repeat' split
    all_goals rfl
  · intro db u b patch now
    unfold updateBlock
    dsimp only
    repeat' split
    all_goals rfl
  · intro db u b now
    unfold deleteBlock
    dsimp only
    repeat' split
    all_goals rfl
  · intro db u b pos now
    unfold updateBlockPosition
    dsimp only
    repeat' split
    all_goals rfl
  · intro db u b now
    unfold duplicateBlock
    dsimp only
    repeat' split
    all_goals rfl
  · intro db u p rbs now pc hpc
    unfold updatePageContent
    dsimp only
    rw [hpc]
  · intro db u p v now entry pc hent hpc
    unfold restorePageVersion
    rw [hent, hpc]
  · intro db u p t ow now tmpl pc ids ht hpc hids
    unfold applyTemplate
    rw [ht]
    dsimp only
    rw [hpc]
    dsimp only
    rw [hids]
    dsimp only
    split
    all_goals rfl

/-- C1 (amended) at concrete stores: a one-block page at version 1 that is
replaced, a page with an archived version 1 that is restored, and a page to
which a one-entry template is applied, discharging every hypothesis of the
amended theorem. -/
theorem C1_amended_witness :
    ((updatePageContent dbOne 7 1 [] 1).1).history = [] ++ [⟨1, 1, [BlockRef.id 0], 7, 1⟩]
    ∧ ((restorePageVersion dbHist 7 1 1 2).1).history
        = dbHist.history ++ [⟨1, 2, [], 7, 2⟩]
    ∧ ((applyTemplate dbTmpl 7 1 5 true 3).1).history
        = [] ++ [⟨1, 1, [BlockRef.doc bSample], 7, 3⟩] := by
  refine ⟨?_, ?_, ?_⟩
  · exact C1_amended.2.2.2.2.2.1 dbOne 7 1 [] 1 ⟨1, [BlockRef.id 0], 1, 7, 0⟩ (by decide)
  · exact C1_amended.2.2.2.2.2.2.1 dbHist 7 1 1 2 ⟨1, 1, [BlockRef.id 0], 7, 1⟩
      ⟨1, [], 2, 7, 1⟩ (by decide) (by decide)
  · exact C1_amended.2.2.2.2.2.2.2 dbTmpl 7 1 5 true 3 ⟨5, [⟨"text", "x", [], []⟩]⟩
      ⟨1, [BlockRef.id 0], 1, 7, 0⟩ [0] (by decide) (by decide) (by decide)

/-! ## Claim C2 -/

/-- C2: claimed — every HistoryEntry written by a mutating operation records
the full block contents of the superseded version.  The code violates this:
replacing the content of the one-block page archives only the id list
`[BlockRef.id 0]`, and reading back version 1 afterwards resolves that id
against the *current* store, yielding the block with its new content
"changed" instead of the empty content it had at version 1.  (Spec section 9
itself flags this id-snapshot behaviour as a bug; only applyTemplate archives
full documents.) -/
theorem C2_history_stores_ids :
    ((updatePageContent dbOne 7 1 [⟨some 0, "text", "changed", [], []⟩] 1).1).history
      = [⟨1, 1, [BlockRef.id 0], 7, 1⟩]
    ∧ getPageVersion (updatePageContent dbOne 7 1 [⟨some 0, "text", "changed", [], []⟩] 1).1 1 1
      = some [⟨0, 1, "text", "changed", [], [], 0, 7, 0, 1⟩] := by
  decide

/-! ## Claim C3 -/

/-- C3: claimed — the version increases by exactly 1 on *every* successful
mutating operation.  Refuted: after createBlock (version 1) and a
replacePageContent with an empty list (version 2, orphaning block 0),
duplicateBlock of the orphaned block 0 succeeds with 201 yet leaves the
version at 2, because the original id no longer occurs in the content list. -/
theorem C3_counterexample :
    (let r1 := createBlock DB.empty 7 1 "text" none none none 0
     let r2 := updatePageContent r1.1 7 1 [] 1
     let r3 := duplicateBlock r2.1 7 0 2
     r1.2.isSuccess = true ∧ r2.2.isSuccess = true ∧ r3.2.isSuccess = true
       ∧ (findContent r2.1 1).map (fun pc => pc.version) = some 2
       ∧ (findContent r3.1 1).map (fun pc => pc.version) = some 2) := by
  decide

/-- C3 (amended): the version starts at 1 on the first write of a page's
content record and increases by exactly 1 on every successful mutating
operation that writes it — createBlock, updateBlock and deleteBlock when the
content record exists, updateBlockPosition to a valid different position,
duplicateBlock when the original's id occurs in the content list, and
replacePageContent, restorePageVersion, applyTemplate; a successful
duplicateBlock of a block absent from the list (and updateBlock/deleteBlock
on a page with no content record) leaves the version unchanged. -/
theorem C3_amended :
    (∀ db u p ty c pos props now, findContent db p = none →
      (findContent ((createBlock db u p ty c pos props now).1) p).map (fun x => x.version)
        = some 1)
    ∧ (∀ db u p ty c pos props now pc, findContent db p = some pc →
        ((createBlock db u p ty c pos props now).2).isSuccess = true →
        (findContent ((createBlock db u p ty c pos props now).1) p).map (fun x => x.version)
          = some (pc.version + 1))
    ∧ (∀ db u b patch now block pc, findBlock db b = some block →
        findContent db block.pageId = some pc →
        (findContent ((updateBlock db u b patch now).1) block.pageId).map (fun x => x.version)
          = some (pc.version + 1))
    ∧ (∀ db u b now block pc, findBlock db b = some block →
        findContent db block.pageId = some pc →
        (findContent ((deleteBlock db u b now).1) block.pageId).map (fun x => x.version)
          = some (pc.version + 1))
    ∧ (∀ db u b pos now block pc, findBlock db b = some block →
        findContent db block.pageId = some pc →
        ¬(pos < 0 ∨ pos ≥ (pc.blocks.length : Int)) → ¬block.position = pos →
        (findContent ((updateBlockPosition db u b pos now).1) block.pageId).map
            (fun x => x.version)
          = some (pc.version + 1))
    ∧ (∀ db u b now block pc i, findBlock db b = some block →
        findContent db block.pageId = some pc →
        pc.blocks.findIdx? (fun r => refMatches r b) = some i →
        (findContent ((duplicateBlock db u b now).1) block.pageId).map (fun x => x.version)
          = some (pc.version + 1))
    ∧ (∀ db u p rbs now, findContent db p = none →
        (findContent ((updatePageContent db u p rbs now).1) p).map (fun x => x.version) = some 1)
    ∧ (∀ db u p rbs now pc, findContent db p = some pc →
        (findContent ((updatePageContent db u p rbs now).1) p).map (fun x => x.version)
          = some (pc.version + 1))
    ∧ (∀ db u p v now entry pc,
        db.history.find? (fun h => h.pageId == p && h.version == v) = some entry →
        findContent db p = some pc →
        (findContent ((restorePageVersion db u p v now).1) p).map (fun x => x.version)
          = some (pc.version + 1))
    ∧ (∀ db u p t ow now tmpl pc ids,
        db.templates.find? (fun x => x.id == t) = some tmpl →
        findContent db p = some pc → refIds pc.blocks = some ids →
        (findContent ((applyTemplate db u p t ow now).1) p).map (fun x => x.version)
          = some (pc.version + 1))
    ∧ (∀ db u p t ow now tmpl,
        db.templates.find? (fun x => x.id == t) = some tmpl →
        findContent db p = none →
        (findContent ((applyTemplate db u p t ow now).1) p).map (fun x => x.version)
          = some 1) := by
  refine ⟨?_, ?_, ?_, ?_, ?_, ?_, ?_, ?_, ?_, ?_, ?_⟩
  · intro db u p ty c pos props now hn
    unfold createBlock
    dsimp only
    rw [hn]
    dsimp only
    simp only [findContent]
    rw [findContent_append_singleton hn]
    simp
  · intro db u p ty c pos props now pc hpc hsucc
    unfold createBlock at hsucc ⊢
    dsimp only at hsucc ⊢
    rw [hpc] at hsucc ⊢
    dsimp only at hsucc ⊢
    cases pos with
    | none =>
      dsimp only
      simp only [findContent]
      rw [findContent_updateFirst_set hpc]
      rfl
    | some q =>
      dsimp only at hsucc ⊢
      cases hr : refIds pc.blocks with
      | none => rw [hr] at hsucc; simp [Res.isSuccess] at hsucc
      | some ids =>
        dsimp only
        simp only [findContent]
        rw [findContent_updateFirst_set hpc]
        rfl
  · intro db u b patch now block pc hb hpc
    unfold updateBlock
    rw [hb]
    dsimp only
    rw [hpc]
    dsimp only
    simp only [findContent]
    rw [findContent_updateFirst_set hpc]
    rfl
  · intro db u b now block pc hb hpc
    unfold deleteBlock
    rw [hb]
    dsimp only
    rw [hpc]
    dsimp only
    simp only [findContent]
    rw [findContent_updateFirst_set hpc]
    rfl
  · intro db u b pos now block pc hb hpc hrange hne
    unfold updateBlockPosition
    rw [hb]
    dsimp only
    rw [hpc]
    dsimp only
    rw [if_neg hrange, if_neg (by simpa using hne)]
    dsimp only
    simp only [findContent]
    rw [findContent_updateFirst_set hpc]
    rfl
  · intro db u b now block pc i hb hpc hidx
    unfold duplicateBlock
    rw [hb]
    dsimp only
    rw [hpc]
    dsimp only
    rw [hidx]
    dsimp only
    simp only [findContent]
    rw [findContent_updateFirst_set hpc]
    rfl
  · intro db u p rbs now hn
    unfold updatePageContent
    dsimp only
    rw [hn]
    dsimp only
    simp only [findContent]
    rw [findContent_append_singleton hn]
    simp
  · intro db u p rbs now pc hpc
    unfold updatePageContent
    dsimp only
    rw [hpc]
    dsimp only
    simp only [findContent]
    rw [findContent_updateFirst_set hpc]
    rfl
  · intro db u p v now entry pc hent hpc
    unfold restorePageVersion
    rw [hent, hpc]
    dsimp only
    simp only [findContent]
    rw [findContent_updateFirst_set hpc]
    rfl
  · intro db u p t ow now tmpl pc ids ht hpc hids
    unfold applyTemplate
    rw [ht]
    dsimp only
    rw [hpc]
    dsimp only
    rw [hids]
    dsimp only
    have hfind : List.find? (fun c => c.pageId == p) db.contents = some pc := hpc
    have hp := List.find?_some hfind
    have hany : (db.contents.any fun c => c.pageId == p) = true := by
      rw [List.any_eq_true]
      exact ⟨pc, List.mem_of_find?_eq_some hfind, hp⟩
    split
    all_goals
      unfold upsertContent
      rw [hany]
      dsimp only
      rw [if_pos rfl]
      simp only [findContent]
      rw [findContent_updateFirst_set hpc]
      rfl
  · intro db u p t ow now tmpl ht hn
    unfold applyTemplate
    rw [ht]
    dsimp only
    rw [hn]
    dsimp only
    unfold upsertContent
    rw [any_eq_false_of_find?_none hn]
    simp only [Bool.false_eq_true, if_false]
    simp only [findContent]
    rw [findContent_append_singleton hn]
    simp

/-- C3 (amended) at concrete stores: every hypothesised conjunct applied at a
small store, covering first write, each block mutation, replace, restore and
template application. -/
theorem C3_amended_witness :
    (findContent ((createBlock DB.empty 7 1 "text" none none none 0).1) 1).map
        (fun x => x.version) = some 1
    ∧ (findContent ((createBlock dbOne 7 1 "note" none (some 0) none 1).1) 1).map
        (fun x => x.version) = some 2
    ∧ (findContent ((updateBlock dbOne 7 0 {} 1).1) 1).map (fun x => x.version) = some 2
    ∧ (findContent ((deleteBlock dbOne 7 0 1).1) 1).map (fun x => x.version) = some 2
    ∧ (findContent ((duplicateBlock dbOne 7 0 1).1) 1).map (fun x => x.version) = some 2
    ∧ (findContent ((updatePageContent dbOne 7 1 [] 1).1) 1).map (fun x => x.version) = some 2
    ∧ (findContent ((restorePageVersion dbHist 7 1 1 2).1) 1).map (fun x => x.version) = some 3
    ∧ (findContent ((applyTemplate dbTmpl 7 1 5 true 3).1) 1).map (fun x => x.version) = some 2
    := by
  refine ⟨?_, ?_, ?_, ?_, ?_, ?_, ?_, ?_⟩
  · exact C3_amended.1 DB.empty 7 1 "text" none none none 0 (by decide)
  · exact C3_amended.2.1 dbOne 7 1 "note" none (some 0) none 1
      ⟨1, [BlockRef.id 0], 1, 7, 0⟩ (by decide) (by decide)
  · exact C3_amended.2.2.1 dbOne 7 0 {} 1 bSample ⟨1, [BlockRef.id 0], 1, 7, 0⟩
      (by decide) (by decide)
  · exact C3_amended.2.2.2.1 dbOne 7 0 1 bSample ⟨1, [BlockRef.id 0], 1, 7, 0⟩
      (by decide) (by decide)
  · exact C3_amended.2.2.2.2.2.1 dbOne 7 0 1 bSample ⟨1, [BlockRef.id 0], 1, 7, 0⟩ 0
      (by decide) (by decide) (by decide)
  · exact C3_amended.2.2.2.2.2.2.2.1 dbOne 7 1 [] 1 ⟨1, [BlockRef.id 0], 1, 7, 0⟩ (by decide)
  · exact C3_amended.2.2.2.2.2.2.2.2.1 dbHist 7 1 1 2 ⟨1, 1, [BlockRef.id 0], 7, 1⟩
      ⟨1, [], 2, 7, 1⟩ (by decide) (by decide)
  · exact C3_amended.2.2.2.2.2.2.2.2.2.1 dbTmpl 7 1 5 true 3 ⟨5, [⟨"text", "x", [], []⟩]⟩
      ⟨1, [BlockRef.id 0], 1, 7, 0⟩ [0] (by decide) (by decide) (by decide)

/-! ## Claim C6 -/

/-- C6: restorePageVersion returns NotFound with no state change when the
target version's history entry or the current content record is missing;
otherwise it appends the current content at its current version to the ledger
(existing entries untouched), overwrites the block list with the target
version's recorded content, sets version to current + 1, and touches no
block. -/
theorem C6_restore_semantics :
    (∀ db u p v now, db.history.find? (fun h => h.pageId == p && h.version == v) = none →
        restorePageVersion db u p v now = (db, .notFound))
    ∧ (∀ db u p v now entry,
        db.history.find? (fun h => h.pageId == p && h.version == v) = some entry →
        findContent db p = none → restorePageVersion db u p v now = (db, .notFound))
    ∧ (∀ db u p v now entry pc,
        db.history.find? (fun h => h.pageId == p && h.version == v) = some entry →
        findContent db p = some pc →
        ((restorePageVersion db u p v now).1).history
            = db.history ++ [⟨p, pc.version, pc.blocks, u, now⟩]
          ∧ (findContent ((restorePageVersion db u p v now).1) p).map
              (fun c => (c.blocks, c.version))
            = some (entry.content, pc.version + 1)
          ∧ ((restorePageVersion db u p v now).1).blocks = db.blocks
          ∧ (restorePageVersion db u p v now).2 = .okRestored (pc.version + 1) v) := by
  refine ⟨?_, ?_, ?_⟩
  · intro db u p v now hn
    unfold restorePageVersion
    rw [hn]
  · intro db u p v now entry hent hn
    unfold restorePageVersion
    rw [hent, hn]
  · intro db u p v now entry pc hent hpc
    unfold restorePageVersion
    rw [hent, hpc]
    refine ⟨rfl, ?_, rfl, rfl⟩
    dsimp only
    simp only [findContent]
    rw [findContent_updateFirst_set hpc]
    rfl

/-- C6 at concrete stores: a missing version, a missing content record, and a
successful restore of archived version 1. -/
theorem C6_restore_semantics_witness :
    restorePageVersion dbOne 7 1 3 2 = (dbOne, .notFound)
    ∧ restorePageVersion ⟨[], [], [⟨2, 1, [], 7, 0⟩], [], 0⟩ 7 2 1 5
        = (⟨[], [], [⟨2, 1, [], 7, 0⟩], [], 0⟩, .notFound)
    ∧ ((restorePageVersion dbHist 7 1 1 2).1).history
        = dbHist.history ++ [⟨1, 2, [], 7, 2⟩]
    ∧ (findContent ((restorePageVersion dbHist 7 1 1 2).1) 1).map
        (fun c => (c.blocks, c.version)) = some ([BlockRef.id 0], 3) := by
  refine ⟨?_, ?_, ?_, ?_⟩
  · exact C6_restore_semantics.1 dbOne 7 1 3 2 (by decide)
  · exact C6_restore_semantics.2.1 ⟨[], [], [⟨2, 1, [], 7, 0⟩], [], 0⟩ 7 2 1 5 ⟨2, 1, [], 7, 0⟩
      (by decide) (by decide)
  · exact (C6_restore_semantics.2.2 dbHist 7 1 1 2 ⟨1, 1, [BlockRef.id 0], 7, 1⟩
      ⟨1, [], 2, 7, 1⟩ (by decide) (by decide)).1
  · exact (C6_restore_semantics.2.2 dbHist 7 1 1 2 ⟨1, 1, [BlockRef.id 0], 7, 1⟩
      ⟨1, [], 2, 7, 1⟩ (by decide) (by decide)).2.1

/-! ## Claim C7 -/

/-- C7: for an existing block on a page with an existing content record of n
listed blocks, updateBlockPosition rejects a position outside [0, n) with
BadRequest and no state change, and answers "unchanged" with no state change
(in particular no version bump and no store write) when the requested
position equals the block's current position. -/
theorem C7_position_validation :
    ∀ db u b pos now block pc, findBlock db b = some block →
      findContent db block.pageId = some pc →
      ((pos < 0 ∨ pos ≥ (pc.blocks.length : Int)) →
        updateBlockPosition db u b pos now = (db, .badRequest))
      ∧ (¬(pos < 0 ∨ pos ≥ (pc.blocks.length : Int)) → block.position = pos →
        updateBlockPosition db u b pos now = (db, .okPositionUnchanged)) := by
  intro db u b pos now block pc hb hpc
  constructor
  · intro hrange
    unfold updateBlockPosition
    rw [hb]
    dsimp only
    rw [hpc]
    dsimp only
    rw [if_pos hrange]
  · intro hrange heq
    unfold updateBlockPosition
    rw [hb]
    dsimp only
    rw [hpc]
    dsimp only
    rw [if_neg hrange, if_pos (by simpa using heq)]

/-- C7 at the one-block store: position 5 is rejected, position 0 (the
block's current position) is a pure no-op. -/
theorem C7_position_validation_witness :
    updateBlockPosition dbOne 7 0 5 1 = (dbOne, .badRequest)
    ∧ updateBlockPosition dbOne 7 0 0 1 = (dbOne, .okPositionUnchanged) := by
  constructor
  · exact (C7_position_validation dbOne 7 0 5 1 bSample ⟨1, [BlockRef.id 0], 1, 7, 0⟩
      (by decide) (by decide)).1 (by decide)
  · exact (C7_position_validation dbOne 7 0 0 1 bSample ⟨1, [BlockRef.id 0], 1, 7, 0⟩
      (by decide) (by decide)).2 (by decide) (by decide)

/-! ## Claim C9 -/

/-- C9: updateBlock merges every supplied request field verbatim into the
block in a single set — including pageId, position, createdBy and children,
with no whitelist — the only server-added field being updatedAt; the
permission gate consults only the workspace of the block's *current* page, so
the caller can move the block to another page or position with no position
fixup (every other block survives unchanged, and no content record's block
list changes) and no check against the target page's workspace (the
hypotheses constrain `canEdit` only at the current page's workspace). -/
theorem C9_update_merges_verbatim :
    ∀ db pageWs canEdit u b patch now block ws,
      findBlock db b = some block →
      pageWs block.pageId = some ws → canEdit ws = true →
      (updateBlockChecked db pageWs canEdit u b patch now).2
          = .okBlock (applyPatch block patch now)
      ∧ (applyPatch block patch now).pageId = patch.pageId.getD block.pageId
      ∧ (applyPatch block patch now).position = patch.position.getD block.position
      ∧ (applyPatch block patch now).createdBy = patch.createdBy.getD block.createdBy
      ∧ (applyPatch block patch now).children = patch.children.getD block.children
      ∧ (applyPatch block patch now).type = patch.type.getD block.type
      ∧ (applyPatch block patch now).content = patch.content.getD block.content
      ∧ (applyPatch block patch now).properties = patch.properties.getD block.properties
      ∧ (applyPatch block patch now).createdAt = patch.createdAt.getD block.createdAt
      ∧ (applyPatch block patch now).updatedAt = now
      ∧ (∀ x ∈ db.blocks, ¬x.id = b →
          x ∈ ((updateBlockChecked db pageWs canEdit u b patch now).1).blocks)
      ∧ ((updateBlockChecked db pageWs canEdit u b patch now).1).contents.map (fun c => c.blocks)
          = db.contents.map (fun c => c.blocks) := by
  intro db pageWs canEdit u b patch now block ws hb hws hce
  unfold updateBlockChecked
  rw [hb]
  dsimp only
  rw [hws]
  dsimp only
  rw [if_pos hce]
  unfold updateBlock
  rw [hb]
  dsimp only
  have hfound :
      (updateFirst (fun x => x.id == b) (fun x => applyPatch x patch now) db.blocks).find?
          (fun x => x.id == b) = some (applyPatch block patch now) :=
    find?_updateFirst_pos hb (fun _ hx => hx)
  refine ⟨?_, rfl, rfl, rfl, rfl, rfl, rfl, rfl, rfl, rfl, ?_, ?_⟩
  · rw [hfound]
    rfl
  · intro x hx hxb
    exact mem_updateFirst_of_not hx (by simpa using hxb)
  · cases hpc : findContent db block.pageId with
    | none => rfl
    | some pc =>
      dsimp only
      exact updateFirst_map_key (fun c => c.blocks)
        (fun c => (rfl : (setContent none (pc.version + 1) u now c).blocks = c.blocks))
        db.contents

/-- C9 at a concrete store: moving block 0 from page 1 (workspace 10, which
the caller may edit) to page 2 (workspace 20, which the caller may *not*
edit) with an arbitrary position succeeds and writes the fields verbatim. -/
theorem C9_update_merges_verbatim_witness :
    (updateBlockChecked dbOne
        (fun p => if p == 1 then some 10 else if p == 2 then some 20 else none)
        (fun w => w == 10) 7 0 { pageId := some 2, position := some 5 } 1).2
      = .okBlock ⟨0, 2, "text", "", [], [], 5, 7, 0, 1⟩ := by
  exact (C9_update_merges_verbatim dbOne
    (fun p => if p == 1 then some 10 else if p == 2 then some 20 else none)
    (fun w => w == 10) 7 0 { pageId := some 2, position := some 5 } 1 bSample 10
    (by decide) rfl rfl).1

/-! ## Claim C10 -/

/-- C10: duplicateBlock copies the original's children by id only: the clone's
children array equals the original's children id list verbatim, the store
gains exactly one block, and every pre-existing block keeps its id and its
children — so no child block is cloned and original and duplicate reference
the identical child records. -/
theorem C10_duplicate_children :
    ∀ db u b now block, findBlock db b = some block →
      (db.blocks.map (fun x => x.id)).Nodup →
      (∀ x ∈ db.blocks, x.id < db.nextId) →
      ((duplicateBlock db u b now).1).blocks.map (fun x => (x.id, x.children))
          = db.blocks.map (fun x => (x.id, x.children)) ++ [(db.nextId, block.children)]
      ∧ ∃ d, (duplicateBlock db u b now).2 = .createdBlock d
          ∧ d.children = block.children ∧ d.id = db.nextId := by
  intro db u b now block hb hnod hfresh
  unfold duplicateBlock
  rw [hb]
  dsimp only
  have hfresh1 : ∀ x ∈ db.blocks, x.id ≠ db.nextId := by
    intro x hx
    have := hfresh x hx
    omega
  constructor
  · rw [foldl_updateFirst_map_sel]
    · rw [List.map_append]
      rfl
    · intro a x
      rfl
  · set nb : Block :=
      { id := db.nextId, pageId := block.pageId, type := block.type,
        content := block.content, properties := block.properties,
        position := block.position + 1, children := block.children,
        createdBy := u, createdAt := now, updatedAt := now } with hnb
    have hnod1 : ((db.blocks ++ [nb]).map (fun x => x.id)).Nodup :=
      nodup_ids_append_fresh hnod hfresh1
    have hsub : ((db.blocks ++ [nb]).filter
        (fun x => x.pageId == block.pageId && decide (x.position > block.position)
          && !(x.id == db.nextId))).Sublist (db.blocks ++ [nb]) :=
      List.filter_sublist _
    have hsnod : (((db.blocks ++ [nb]).filter
        (fun x => x.pageId == block.pageId && decide (x.position > block.position)
          && !(x.id == db.nextId))).map (fun x => x.id)).Nodup :=
      List.Nodup.sublist (List.Sublist.map (fun x => x.id) hsub) hnod1
    have hSn : ∀ a ∈ (db.blocks ++ [nb]).filter
        (fun x => x.pageId == block.pageId && decide (x.position > block.position)
          && !(x.id == db.nextId)), (a.id == db.nextId) = false := by
      intro a ha
      rw [List.mem_filter] at ha
      have h2 := ha.2
      simp only [Bool.and_eq_true, Bool.not_eq_eq_eq_not, Bool.not_true] at h2
      exact h2.2
    refine ⟨_, rfl, ?_, ?_⟩
    · rw [foldl_updateFirst_find_fresh]
      · rfl
      · rfl
      · exact hnod1
      · exact hsnod
      · exact hSn
      · exact hfresh1
      · intro a x
        rfl
    · rw [foldl_updateFirst_find_fresh]
      · rfl
      · rfl
      · exact hnod1
      · exact hsnod
      · exact hSn
      · exact hfresh1
      · intro a x
        rfl

/-- C10 at the one-block store with children [3, 4]: the duplicate carries the
same two child ids and the store ends with exactly the original and the
clone. -/
theorem C10_duplicate_children_witness :
    (let db : DB := ⟨[⟨0, 1, "text", "", [], [3, 4], 0, 7, 0, 0⟩],
       [⟨1, [BlockRef.id 0], 1, 7, 0⟩], [], [], 1⟩
     ((duplicateBlock db 7 0 2).1).blocks.map (fun x => (x.id, x.children))
        = [(0, [3, 4]), (1, [3, 4])]
     ∧ ∃ d, (duplicateBlock db 7 0 2).2 = .createdBlock d
         ∧ d.children = [3, 4] ∧ d.id = 1) := by
  have h := C10_duplicate_children
    ⟨[⟨0, 1, "text", "", [], [3, 4], 0, 7, 0, 0⟩], [⟨1, [BlockRef.id 0], 1, 7, 0⟩], [], [], 1⟩
    7 0 2 ⟨0, 1, "text", "", [], [3, 4], 0, 7, 0, 0⟩ (by decide) (by decide) (by decide)
  exact ⟨h.1, h.2⟩

/-! ## Claim C8 -/

/-- C8: duplicating a listed block at position P creates a clone with the
same type, content and properties at position P + 1, shifts every
pre-existing block of the page with position > P (that is, ≥ P + 1) up by
exactly 1, splices the clone's id into the content list immediately after the
original's id (index i + 1 when the original's id sits at index i), and bumps
the version by 1. -/
theorem C8_duplicate_placement :
    ∀ db u b now block pc i, findBlock db b = some block →
      findContent db block.pageId = some pc →
      pc.blocks.findIdx? (fun r => refMatches r b) = some i →
      (db.blocks.map (fun x => x.id)).Nodup →
      (∀ x ∈ db.blocks, x.id < db.nextId) →
      ((duplicateBlock db u b now).1).blocks
          = db.blocks.map (fun x =>
              if x.pageId = block.pageId ∧ block.position < x.position then
                { x with position := x.position + 1, updatedAt := now }
              else x)
            ++ [⟨db.nextId, block.pageId, block.type, block.content, block.properties,
                block.children, block.position + 1, u, now, now⟩]
      ∧ (findContent ((duplicateBlock db u b now).1) block.pageId)
          = some (setContent (some (insertAt pc.blocks (i + 1) (BlockRef.id db.nextId)))
              (pc.version + 1) u now pc)
      ∧ (duplicateBlock db u b now).2
          = .createdBlock ⟨db.nextId, block.pageId, block.type, block.content, block.properties,
              block.children, block.position + 1, u, now, now⟩ := by
  intro db u b now block pc i hb hpc hidx hnod hfresh
  unfold duplicateBlock
  rw [hb]
  dsimp only
  rw [hpc]
  dsimp only
  rw [hidx]
  dsimp only
  have hfresh1 : ∀ x ∈ db.blocks, x.id ≠ db.nextId := by
    intro x hx
    have := hfresh x hx
    omega
  set nb : Block :=
    { id := db.nextId, pageId := block.pageId, type := block.type, content := block.content,
      properties := block.properties, position := block.position + 1,
      children := block.children, createdBy := u, createdAt := now, updatedAt := now } with hnb
  have hnod1 : ((db.blocks ++ [nb]).map (fun x => x.id)).Nodup :=
    nodup_ids_append_fresh hnod hfresh1
  have hsub : ((db.blocks ++ [nb]).filter
      (fun x => x.pageId == block.pageId && decide (x.position > block.position)
        && !(x.id == db.nextId))).Sublist (db.blocks ++ [nb]) :=
    List.filter_sublist _
  have hsnod : (((db.blocks ++ [nb]).filter
      (fun x => x.pageId == block.pageId && decide (x.position > block.position)
        && !(x.id == db.nextId))).map (fun x => x.id)).Nodup :=
    List.Nodup.sublist (List.Sublist.map (fun x => x.id) hsub) hnod1
  have hSn : ∀ a ∈ (db.blocks ++ [nb]).filter
      (fun x => x.pageId == block.pageId && decide (x.position > block.position)
        && !(x.id == db.nextId)), (a.id == db.nextId) = false := by
    intro a ha
    rw [List.mem_filter] at ha
    have h2 := ha.2
    simp only [Bool.and_eq_true, Bool.not_eq_eq_eq_not, Bool.not_true] at h2
    exact h2.2
  have hsubmem : ∀ a ∈ (db.blocks ++ [nb]).filter
      (fun x => x.pageId == block.pageId && decide (x.position > block.position)
        && !(x.id == db.nextId)), a ∈ db.blocks ++ [nb] := by
    intro a ha
    exact (List.mem_filter.mp ha).1
  refine ⟨?_, ?_, ?_⟩
  · rw [foldl_updateFirst_eq_map _ (fun a : Block => a.id) _ _ hnod1 hsnod]
    · rw [List.map_append]
      refine congrArg₂ _ ?_ ?_
      · apply List.map_congr_left
        intro x hx
        have hmem : x ∈ db.blocks ++ [nb] := List.mem_append_left _ hx
        rw [find?_id_self hnod1 hsubmem hmem]
        by_cases hcond : x.pageId = block.pageId ∧ block.position < x.position
        · have hin : x ∈ (db.blocks ++ [nb]).filter
              (fun y => y.pageId == block.pageId && decide (y.position > block.position)
                && !(y.id == db.nextId)) := by
            rw [List.mem_filter]
            refine ⟨hmem, ?_⟩
            simp [hcond.1, hcond.2, hfresh1 x hx]
          rw [if_pos hin, if_pos hcond]
        · have hout : x ∉ (db.blocks ++ [nb]).filter
              (fun y => y.pageId == block.pageId && decide (y.position > block.position)
                && !(y.id == db.nextId)) := by
            intro hin
            rw [List.mem_filter] at hin
            have h2 := hin.2
            simp only [Bool.and_eq_true, beq_iff_eq, decide_eq_true_eq] at h2
            exact hcond ⟨h2.1.1, h2.1.2⟩
          rw [if_neg hout, if_neg hcond]
      · show List.map _ [nb] = [nb]
        simp only [List.map_cons, List.map_nil]
        have hnbout : nb ∉ (db.blocks ++ [nb]).filter
            (fun y => y.pageId == block.pageId && decide (y.position > block.position)
              && !(y.id == db.nextId)) := by
          intro hin
          have := hSn nb hin
          simp at this
        rw [find?_id_self hnod1 hsubmem (List.mem_append_right _ (List.mem_singleton_self nb))]
        rw [if_neg hnbout]
    · intro a x
      rfl
  · simp only [findContent]
    rw [findContent_updateFirst_set hpc]
  · rw [foldl_updateFirst_find_fresh]
    · rfl
    · rfl
    · exact hnod1
    · exact hsnod
    · exact hSn
    · exact hfresh1
    · intro a x
      rfl

/-- C8 at a two-block page: duplicating the block at position 0 shifts the
block at position 1 to 2, inserts the clone at position 1, splices its id
right after the original's, and moves the version from 1 to 2. -/
theorem C8_duplicate_placement_witness :
    (let dbTwo : DB := ⟨[⟨0, 1, "text", "a", [], [], 0, 7, 0, 0⟩,
        ⟨1, 1, "text", "b", [], [], 1, 7, 0, 0⟩],
      [⟨1, [BlockRef.id 0, BlockRef.id 1], 1, 7, 0⟩], [], [], 2⟩
     ((duplicateBlock dbTwo 7 0 5).1).blocks
        = [⟨0, 1, "text", "a", [], [], 0, 7, 0, 0⟩, ⟨1, 1, "text", "b", [], [], 2, 7, 0, 5⟩,
           ⟨2, 1, "text", "a", [], [], 1, 7, 5, 5⟩]
     ∧ (findContent ((duplicateBlock dbTwo 7 0 5).1) 1)
        = some ⟨1, [BlockRef.id 0, BlockRef.id 2, BlockRef.id 1], 2, 7, 5⟩
     ∧ (duplicateBlock dbTwo 7 0 5).2
        = .createdBlock ⟨2, 1, "text", "a", [], [], 1, 7, 5, 5⟩) := by
  have h := C8_duplicate_placement
    ⟨[⟨0, 1, "text", "a", [], [], 0, 7, 0, 0⟩, ⟨1, 1, "text", "b", [], [], 1, 7, 0, 0⟩],
      [⟨1, [BlockRef.id 0, BlockRef.id 1], 1, 7, 0⟩], [], [], 2⟩
    7 0 5 ⟨0, 1, "text", "a", [], [], 0, 7, 0, 0⟩ ⟨1, [BlockRef.id 0, BlockRef.id 1], 1, 7, 0⟩ 0
    (by decide) (by decide) (by decide) (by decide) (by decide)
  refine ⟨?_, ?_, h.2.2⟩
  · rw [h.1]
    decide
  · rw [h.2.1]
    decide

/-! ## Claim C5 -/

/-- C5: applyTemplate with overwrite on a page whose content record exists
(and whose blocks are exactly the listed ones — the representation invariant)
deletes every original block from the store, creates one fresh block per
template entry (id counting from the generator, position = template index,
createdBy = acting user, pageId = target page), replaces the content list
wholesale with the fresh ids in template order and bumps the version by 1;
no original block survives. -/
theorem C5_apply_template_overwrite :
    ∀ db u p t now tmpl pc ids,
      db.templates.find? (fun x => x.id == t) = some tmpl →
      findContent db p = some pc →
      refIds pc.blocks = some ids →
      (∀ x ∈ db.blocks, x.pageId = p → x.id ∈ ids) →
      (∀ n ∈ ids, n < db.nextId) →
      (applyTemplate db u p t true now).2 = .okTemplateApplied
      ∧ pageBlocks ((applyTemplate db u p t true now).1) p
          = cloneTemplateBlocks tmpl.content p u now db.nextId 0
      ∧ findContent ((applyTemplate db u p t true now).1) p
          = some (setContent
              (some ((cloneTemplateBlocks tmpl.content p u now db.nextId 0).map
                (fun x => BlockRef.id x.id)))
              (pc.version + 1) u now pc)
      ∧ (∀ n ∈ ids, findBlock ((applyTemplate db u p t true now).1) n = none)
      ∧ (cloneTemplateBlocks tmpl.content p u now db.nextId 0).map (fun x => x.id)
          = (List.range tmpl.content.length).map (fun j => db.nextId + j)
      ∧ (cloneTemplateBlocks tmpl.content p u now db.nextId 0).map (fun x => x.position)
          = (List.range tmpl.content.length).map (fun (j : Nat) => (j : Int))
      ∧ (∀ x ∈ cloneTemplateBlocks tmpl.content p u now db.nextId 0,
          x.pageId = p ∧ x.createdBy = u) := by
  intro db u p t now tmpl pc ids ht hpc hids hwf hlt
  unfold applyTemplate
  rw [ht]
  dsimp only
  rw [hpc]
  dsimp only
  rw [hids]
  dsimp only
  rw [if_pos rfl]
  have hfind : List.find? (fun c => c.pageId == p) db.contents = some pc := hpc
  have hp := List.find?_some hfind
  have hany : (db.contents.any fun c => c.pageId == p) = true := by
    rw [List.any_eq_true]
    exact ⟨pc, List.mem_of_find?_eq_some hfind, hp⟩
  refine ⟨rfl, ?_, ?_, ?_, ?_, ?_, ?_⟩
  · unfold pageBlocks
    dsimp only
    rw [List.filter_append]
    have h1 : (db.blocks.filter (fun b => !ids.contains b.id)).filter
        (fun b => b.pageId == p) = [] := by
      rw [List.filter_eq_nil_iff]
      intro a ha hap
      rw [List.mem_filter] at ha
      have hap' : a.pageId = p := by simpa using hap
      have hmem : a.id ∈ ids := hwf a ha.1 hap'
      have hc := ha.2
      rw [Bool.not_eq_eq_eq_not, Bool.not_true] at hc
      have htrue : ids.contains a.id = true := List.elem_eq_true_of_mem hmem
      rw [htrue] at hc
      cases hc
    have h2 : (cloneTemplateBlocks tmpl.content p u now db.nextId 0).filter
        (fun b => b.pageId == p) = cloneTemplateBlocks tmpl.content p u now db.nextId 0 := by
      rw [List.filter_eq_self]
      intro a ha
      simp [(mem_cloneTemplateBlocks ha).1]
    rw [h1, h2, List.nil_append]
  · unfold upsertContent
    rw [hany]
    dsimp only
    rw [if_pos rfl]
    simp only [findContent]
    rw [findContent_updateFirst_set hpc]
  · intro n hn
    unfold findBlock
    dsimp only
    rw [List.find?_eq_none]
    intro x hx
    rcases List.mem_append.mp hx with hx' | hx'
    · rw [List.mem_filter] at hx'
      have hc := hx'.2
      rw [Bool.not_eq_eq_eq_not, Bool.not_true] at hc
      intro hbeq
      have hxn : x.id = n := by simpa using hbeq
      have htrue : ids.contains x.id = true := List.elem_eq_true_of_mem (hxn ▸ hn)
      rw [htrue] at hc
      cases hc
    · have h3 := (mem_cloneTemplateBlocks hx').2.2.1
      have h4 := hlt n hn
      intro hbeq
      have : x.id = n := by simpa using hbeq
      omega
  · exact cloneTemplateBlocks_map_id tmpl.content p u now db.nextId 0
  · have h6 := cloneTemplateBlocks_map_position tmpl.content p u now db.nextId 0
    simpa using h6
  · intro x hx
    exact ⟨(mem_cloneTemplateBlocks hx).1, (mem_cloneTemplateBlocks hx).2.1⟩

/-- C5 at the one-block page and the one-entry template: the original block 0
disappears, one fresh block (id 1, position 0, created by the caller)
replaces it, the list becomes [1] and the version moves to 2. -/
theorem C5_apply_template_overwrite_witness :
    (applyTemplate dbTmpl 7 1 5 true 3).2 = .okTemplateApplied
    ∧ pageBlocks ((applyTemplate dbTmpl 7 1 5 true 3).1) 1
        = [⟨1, 1, "text", "x", [], [], 0, 7, 3, 3⟩]
    ∧ findContent ((applyTemplate dbTmpl 7 1 5 true 3).1) 1
        = some ⟨1, [BlockRef.id 1], 2, 7, 3⟩
    ∧ findBlock ((applyTemplate dbTmpl 7 1 5 true 3).1) 0 = none := by
  have h := C5_apply_template_overwrite dbTmpl 7 1 5 3 ⟨5, [⟨"text", "x", [], []⟩]⟩
    ⟨1, [BlockRef.id 0], 1, 7, 0⟩ [0] (by decide) (by decide) (by decide)
    (by decide) (by decide)
  refine ⟨h.1, ?_, ?_, h.2.2.2.1 0 (by decide)⟩
  · rw [h.2.1]
    decide
  · rw [h.2.2.1]
    decide

/-! ## Claim C4: the position-contiguity invariant -/

theorem mem_pageBlocks {db : DB} {p : Nat} {x : Block} :
    x ∈ pageBlocks db p ↔ x ∈ db.blocks ∧ x.pageId = p := by
  simp [pageBlocks, List.mem_filter]

theorem pageBlocks_ids_nodup {db : DB} (hnod : (db.blocks.map (fun x => x.id)).Nodup)
    (p : Nat) : ((pageBlocks db p).map (fun x => x.id)).Nodup :=
  ((List.filter_sublist _).map _).nodup hnod

theorem perm_ids_nodup {bl l : List Block} (h : bl.Perm l)
    (hnod : (l.map (fun x => x.id)).Nodup) : (bl.map (fun x => x.id)).Nodup :=
  ((h.map _).nodup_iff).mpr hnod

/-- An id-distinct collection splits at any member, with the id absent on both
sides. -/
theorem split_at_id {bs : List Block} (hnod : (bs.map (fun x => x.id)).Nodup)
    {x : Block} (hx : x ∈ bs) :
    ∃ u v, bs = u ++ x :: v ∧ (∀ y ∈ u, y.id ≠ x.id) ∧ (∀ y ∈ v, y.id ≠ x.id) := by
  obtain ⟨u, v, rfl⟩ := List.append_of_mem hx
  rw [List.map_append, List.map_cons, List.nodup_append] at hnod
  refine ⟨u, v, rfl, ?_, ?_⟩
  · intro y hy hid
    exact hnod.2.2 (List.mem_map_of_mem (fun x => x.id) hy)
      (by rw [hid]; exact List.mem_cons_self _ _)
  · intro y hy hid
    exact (List.nodup_cons.mp hnod.2.1).1 (by rw [← hid]; exact List.mem_map_of_mem _ hy)

/-- Filtering by page commutes with a page-preserving rewrite of the store. -/
theorem filter_map_pageId {f : Block → Block} (hf : ∀ x, (f x).pageId = x.pageId)
    (bs : List Block) (pr : Nat) :
    (bs.map f).filter (fun x => x.pageId == pr)
      = (bs.filter (fun x => x.pageId == pr)).map f := by
  rw [List.filter_map]
  congr 1
  apply List.filter_congr
  intro x _
  simp [Function.comp, hf]

theorem PosFrom_lt_of_mem {k : Nat} {l : List Block} (h : PosFrom k l) {b : Block}
    (hb : b ∈ l) : b.position < ((k + l.length : Nat) : Int) := by
  induction l generalizing k with
  | nil => simp at hb
  | cons a l ih =>
    rcases List.mem_cons.mp hb with rfl | hb'
    · rw [h.1]
      simp only [List.length_cons]
      push_cast
      omega
    · have := ih h.2 hb'
      simp only [List.length_cons]
      push_cast at this ⊢
      omega

theorem removeFirst_append_of_first {p : α → Bool} {a : α} :
    ∀ (l₁ l₂ : List α), (∀ x ∈ l₁, p x = false) → p a = true →
      removeFirst p (l₁ ++ a :: l₂) = l₁ ++ l₂ := by
  intro l₁
  induction l₁ with
  | nil =>
    intro l₂ _ ha
    simp [removeFirst, ha]
  | cons b l₁ ih =>
    intro l₂ hfalse ha
    have hb : p b = false := hfalse b (List.mem_cons_self b l₁)
    simp only [List.cons_append, removeFirst, hb, Bool.false_eq_true, if_false,
      List.append_eq]
    rw [ih l₂ (fun x hx => hfalse x (List.mem_cons_of_mem b hx)) ha]

theorem insertAt_length_append : ∀ (l₁ l₂ : List α) (x : α),
    insertAt (l₁ ++ l₂) l₁.length x = l₁ ++ x :: l₂ := by
  intro l₁
  induction l₁ with
  | nil =>
    intro l₂ x
    exact insertAt_zero l₂ x
  | cons a l₁ ih =>
    intro l₂ x
    simp only [List.cons_append, List.length_cons, insertAt_succ_cons]
    rw [ih]

/-- Mapping the enum-keyed snapshot lookup over the snapshot list itself
renumbers each element by its own index. -/
theorem map_find_enum_eq (l : List Block) (hnod : (l.map (fun x => x.id)).Nodup)
    (G : Nat × Block → Block → Block) :
    l.map (fun x => ((l.enum.find? (fun a => a.2.id == x.id)).map (fun a => G a x)).getD x)
      = l.enum.map (fun ib => G ib ib.2) := by
  apply List.ext_getElem
  · simp
  · intro i h1 h2
    rw [List.getElem_map, List.getElem_map, List.getElem_enum]
    have hfind := enumFrom_find_of_getElem l 0 i (by simpa using h1) hnod
    have henum : l.enum = l.enumFrom 0 := rfl
    simp [henum, hfind]

theorem Inv_empty : Inv DB.empty := by
  refine ⟨?_, ?_, ?_, ?_⟩
  · intro x hx; cases hx
  · constructor
  · intro p _; rfl
  · intro p pc h; cases h

/-- The invariant yields C4's conclusion: the page's positions are exactly
{0, ..., count-1}. -/
theorem Inv_positions_perm {db : DB} (hInv : Inv db) (p : Nat) :
    ((pageBlocks db p).map (fun x => x.position)).Perm
      ((List.range (pageBlocks db p).length).map (fun (j : Nat) => (j : Int))) := by
  cases hfind : findContent db p with
  | none =>
    rw [hInv.orphanFree p hfind]
    exact List.Perm.refl _
  | some pc =>
    obtain ⟨bl, hbl1, hbl2, hbl3⟩ := hInv.shape p pc hfind
    have hlen : bl.length = (pageBlocks db p).length := hbl3.length_eq
    have hmap := PosFrom_map_position hbl2
    have hperm : (bl.map (fun x => x.position)).Perm
        ((pageBlocks db p).map (fun x => x.position)) := hbl3.map _
    rw [hmap, hlen] at hperm
    refine hperm.symm.trans ?_
    apply List.Perm.of_eq
    apply List.map_congr_left
    intro j _
    simp

/-- The state deleteBlock leaves behind when block and content record exist. -/
theorem deleteBlock_eq {db : DB} {u b now : Nat} {block : Block} {pc : PageContent}
    (hb : findBlock db b = some block) (hpc : findContent db block.pageId = some pc) :
    (deleteBlock db u b now).1 =
      { db with
        blocks := removeFirst (fun x => x.id == b)
          ((db.blocks.filter
              (fun x => x.pageId == block.pageId && x.position > block.position)).foldl
            (fun acc x => updateFirst (fun y => y.id == x.id)
              (fun y => { y with position := x.position - 1 }) acc) db.blocks),
        contents := updateFirst (fun c => c.pageId == block.pageId)
          (setContent (some (pc.blocks.filter (fun r => !(refMatches r b))))
            (pc.version + 1) u now) db.contents } := by
  unfold deleteBlock
  rw [hb]
  dsimp only
  rw [hpc]

/-- deleteBlock preserves the contiguity invariant. -/
theorem Inv_deleteBlock {db : DB} (hInv : Inv db) (u b now : Nat) :
    Inv (deleteBlock db u b now).1 := by
  obtain ⟨hfresh, hnod, horphan, hshape⟩ := hInv
  cases hb : findBlock db b with
  | none =>
    unfold deleteBlock
    rw [hb]
    exact ⟨hfresh, hnod, horphan, hshape⟩
  | some block =>
    have hmemb : block ∈ db.blocks := List.mem_of_find?_eq_some hb
    have hidb : block.id = b := by simpa using List.find?_some hb
    cases hpc : findContent db block.pageId with
    | none =>
      exfalso
      have hempty := horphan block.pageId hpc
      have hmem' : block ∈ pageBlocks db block.pageId := mem_pageBlocks.mpr ⟨hmemb, rfl⟩
      rw [hempty] at hmem'
      cases hmem'
    | some pc =>
      obtain ⟨bl, hbl1, hbl2, hbl3⟩ := hshape block.pageId pc hpc
      have hblnod : (bl.map (fun x => x.id)).Nodup :=
        perm_ids_nodup hbl3 (pageBlocks_ids_nodup hnod block.pageId)
      have hblk : block ∈ bl := hbl3.mem_iff.mpr (mem_pageBlocks.mpr ⟨hmemb, rfl⟩)
      obtain ⟨l1, l2, hsplit, hl1, hl2⟩ := split_at_id hblnod hblk
      rw [hsplit] at hbl2
      rw [PosFrom_append] at hbl2
      obtain ⟨hpos1, hposc⟩ := hbl2
      have hbpos : block.position = (l1.length : Int) := by
        have := hposc.1
        simpa using this
      have hpos2 : PosFrom (l1.length + 1) l2 := by
        have := hposc.2
        simpa using this
      -- the snapshot of strictly-later blocks of the page
      set snap := db.blocks.filter
        (fun x => x.pageId == block.pageId && x.position > block.position) with hsnap
      have hsnapsub : ∀ x ∈ snap, x ∈ db.blocks := fun x hx => (List.mem_filter.mp hx).1
      have hsnapnod : (snap.map (fun x => x.id)).Nodup :=
        ((List.filter_sublist _).map _).nodup hnod
      have hmem_snap : ∀ x, x ∈ snap ↔
          x ∈ db.blocks ∧ x.pageId = block.pageId ∧ block.position < x.position := by
        intro x
        rw [hsnap, List.mem_filter]
        constructor
        · rintro ⟨h1, h2⟩
          simp only [Bool.and_eq_true, beq_iff_eq, decide_eq_true_eq] at h2
          exact ⟨h1, h2.1, h2.2⟩
        · rintro ⟨h1, h2, h3⟩
          refine ⟨h1, ?_⟩
          simp only [Bool.and_eq_true, beq_iff_eq, decide_eq_true_eq]
          exact ⟨h2, h3⟩
      -- the fold is an elementwise map
      have hfold := foldl_updateFirst_eq_map snap (fun a => a.id)
        (fun a x => { x with position := a.position - 1 }) db.blocks hnod hsnapnod
        (fun a x => rfl)
      set g : Block → Block := fun x =>
        if x ∈ snap then { x with position := x.position - 1 } else x with hg
      have hfoldg : snap.foldl (fun acc x => updateFirst (fun y => y.id == x.id)
            (fun y => { y with position := x.position - 1 }) acc) db.blocks
          = db.blocks.map g := by
        rw [hfold]
        apply List.map_congr_left
        intro x hx
        rw [find?_id_self hnod hsnapsub hx]
        by_cases hxs : x ∈ snap
        · rw [if_pos hxs]
          simp only [hg, if_pos hxs]
        · rw [if_neg hxs]
          simp only [hg, if_neg hxs]
      have hgid : ∀ y, (g y).id = y.id := by
        intro y
        rw [hg]
        by_cases h : y ∈ snap <;> simp [h]
      have hgpg : ∀ y, (g y).pageId = y.pageId := by
        intro y
        rw [hg]
        by_cases h : y ∈ snap <;> simp [h]
      -- split the store at the block
      obtain ⟨m1, m2, hmsplit, hm1, hm2⟩ := split_at_id hnod hmemb
      rw [deleteBlock_eq hb hpc, ← hsnap, hfoldg]
      have hremove : removeFirst (fun x => x.id == b) (db.blocks.map g)
          = m1.map g ++ m2.map g := by
        rw [hmsplit, List.map_append, List.map_cons]
        apply removeFirst_append_of_first
        · intro y hy
          obtain ⟨z, hz, rfl⟩ := List.mem_map.mp hy
          have : z.id ≠ b := by
            rw [← hidb]
            exact hm1 z hz
          simp [hgid, this]
        · simp [hgid, hidb]
      rw [hremove]
      -- component 1: freshness
      refine ⟨?_, ?_, ?_, ?_⟩
      · intro x hx
        rcases List.mem_append.mp hx with h | h
        · obtain ⟨z, hz, rfl⟩ := List.mem_map.mp h
          rw [hgid]
          exact hfresh z (by rw [hmsplit]; exact List.mem_append_left _ hz)
        · obtain ⟨z, hz, rfl⟩ := List.mem_map.mp h
          rw [hgid]
          exact hfresh z
            (by rw [hmsplit]; exact List.mem_append_right _ (List.mem_cons_of_mem _ hz))
      -- component 2: id-distinctness
      · have hidcol : ((m1.map g ++ m2.map g).map (fun x => x.id))
            = m1.map (fun x => x.id) ++ m2.map (fun x => x.id) := by
          rw [List.map_append, List.map_map, List.map_map]
          congr 1 <;> exact List.map_congr_left (fun y _ => hgid y)
        rw [hidcol]
        have hnod' := hnod
        rw [hmsplit, List.map_append, List.map_cons] at hnod'
        exact ((List.Sublist.append_left (List.sublist_cons_self _ _) _)).nodup hnod'
      -- component 3: orphan-freeness
      · intro p' hnone'
        by_cases hp' : p' = block.pageId
        · subst hp'
          exfalso
          simp only [findContent] at hnone'
          rw [findContent_updateFirst_set hpc] at hnone'
          cases hnone' 
        · have hother : findContent db p' = none := by
            simp only [findContent] at hnone' ⊢
            rw [findContent_updateFirst_other (Ne.symm hp')] at hnone'
            · exact hnone'
            · intro c
              rfl
          have hold := horphan p' hother
          simp only [pageBlocks] at hold ⊢
          rw [hmsplit] at hold
          rw [List.filter_append] at hold ⊢
          rw [List.filter_cons] at hold
          have hbp' : (block.pageId == p') = false := by
            simp [Ne.symm hp']
          rw [hbp'] at hold
          simp only [Bool.false_eq_true, if_false] at hold
          have h1 : m1.filter (fun x => x.pageId == p') = [] := (List.append_eq_nil.mp hold).1
          have h2 : m2.filter (fun x => x.pageId == p') = [] := (List.append_eq_nil.mp hold).2
          rw [filter_map_pageId hgpg, filter_map_pageId hgpg, h1, h2]
          rfl
      -- component 4: content shape
      · intro p' pc' hfind'
        by_cases hp' : p' = block.pageId
        · subst hp'
          simp only [findContent] at hfind'
          rw [findContent_updateFirst_set hpc] at hfind'
          obtain rfl : setContent (some (pc.blocks.filter (fun r => !(refMatches r b))))
              (pc.version + 1) u now pc = pc' := by
            injection hfind'
          refine ⟨l1 ++ l2.map g, ?_, ?_, ?_⟩
          · -- the stored list is the filtered ref list
            show (setContent _ _ _ _ pc).blocks = _
            have hval : (setContent (some (pc.blocks.filter (fun r => !(refMatches r b))))
                (pc.version + 1) u now pc).blocks
                = pc.blocks.filter (fun r => !(refMatches r b)) := rfl
            rw [hval, hbl1, hsplit, List.map_append, List.map_cons, List.filter_append,
              List.filter_cons]
            have hfb : (!(refMatches (BlockRef.id block.id) b)) = false := by
              simp [refMatches_id, hidb]
            rw [hfb]
            simp only [Bool.false_eq_true, if_false]
            have hf1 : (l1.map (fun x => BlockRef.id x.id)).filter
                (fun r => !(refMatches r b)) = l1.map (fun x => BlockRef.id x.id) := by
              rw [List.filter_eq_self]
              intro r hr
              obtain ⟨z, hz, rfl⟩ := List.mem_map.mp hr
              have : z.id ≠ b := by
                rw [← hidb]
                exact hl1 z hz
              simp [refMatches_id, this]
            have hf2 : (l2.map (fun x => BlockRef.id x.id)).filter
                (fun r => !(refMatches r b)) = l2.map (fun x => BlockRef.id x.id) := by
              rw [List.filter_eq_self]
              intro r hr
              obtain ⟨z, hz, rfl⟩ := List.mem_map.mp hr
              have : z.id ≠ b := by
                rw [← hidb]
                exact hl2 z hz
              simp [refMatches_id, this]
            rw [hf1, hf2, List.map_append, List.map_map]
            congr 1
            apply List.map_congr_left
            intro y _
            simp [Function.comp, hgid]
          · -- contiguity of the reassembled run
            rw [PosFrom_append]
            refine ⟨hpos1, ?_⟩
            have hmemsnap : ∀ y ∈ l2, y ∈ snap := by
              intro y hy
              have hybl : y ∈ bl := by
                rw [hsplit]
                exact List.mem_append_right _ (List.mem_cons_of_mem _ hy)
              have hypb : y ∈ pageBlocks db block.pageId := hbl3.mem_iff.mp hybl
              obtain ⟨hydb, hypg⟩ := mem_pageBlocks.mp hypb
              have hygt : block.position < y.position := by
                have := PosFrom_le_of_mem hpos2 hy
                rw [hbpos]
                push_cast at this ⊢
                omega
              exact (hmem_snap y).mpr ⟨hydb, hypg, hygt⟩
            have hl2g : l2.map g = l2.map (fun y => { y with position := y.position - 1 }) := by
              apply List.map_congr_left
              intro y hy
              rw [hg]
              simp [hmemsnap y hy]
            rw [hl2g]
            have := PosFrom_map_dec (g := fun y => { y with position := y.position - 1 })
              (fun y => rfl) hpos2
            simpa using this
          · -- permutation with the page's surviving blocks
            have hl1g : l1.map g = l1 := by
              have : ∀ y ∈ l1, g y = y := by
                intro y hy
                rw [hg]
                have hnot : y ∉ snap := by
                  intro hmem
                  have hlt := PosFrom_lt_of_mem hpos1 hy
                  have := ((hmem_snap y).mp hmem).2.2
                  rw [hbpos] at this
                  push_cast at hlt
                  omega
                simp [hnot]
              rw [List.map_congr_left this, List.map_id']
            show (l1 ++ l2.map g).Perm
              ((m1.map g ++ m2.map g).filter (fun x => x.pageId == block.pageId))
            rw [List.filter_append, filter_map_pageId hgpg, filter_map_pageId hgpg,
              ← List.map_append]
            have hpagesplit : pageBlocks db block.pageId
                = m1.filter (fun x => x.pageId == block.pageId)
                  ++ block :: m2.filter (fun x => x.pageId == block.pageId) := by
              simp only [pageBlocks]
              rw [hmsplit, List.filter_append, List.filter_cons]
              simp
            have hperm12 : (l1 ++ l2).Perm
                (m1.filter (fun x => x.pageId == block.pageId)
                  ++ m2.filter (fun x => x.pageId == block.pageId)) := by
              apply List.Perm.cons_inv (a := block)
              refine (List.perm_middle.symm.trans ?_).trans List.perm_middle
              rw [← hsplit, ← hpagesplit]
              exact hbl3
            have := hperm12.map g
            rw [List.map_append, hl1g] at this
            exact this
        · have hother : findContent db p' = some pc' := by
            simp only [findContent] at hfind' ⊢
            rw [findContent_updateFirst_other (Ne.symm hp')] at hfind'
            · exact hfind'
            · intro c
              rfl
          obtain ⟨bl'', h1, h2, h3⟩ := hshape p' pc' hother
          refine ⟨bl'', h1, h2, ?_⟩
          show bl''.Perm ((m1.map g ++ m2.map g).filter (fun x => x.pageId == p'))
          have hgother : ∀ {ms : List Block}, (∀ y ∈ ms, y.id ≠ block.id) →
              (ms.map g).filter (fun x => x.pageId == p')
                = ms.filter (fun x => x.pageId == p') := by
            intro ms _
            rw [filter_map_pageId hgpg]
            have : ∀ y ∈ ms.filter (fun x => x.pageId == p'), g y = y := by
              intro y hy
              have hyp' : y.pageId = p' := by
                have := (List.mem_filter.mp hy).2
                simpa using this
              rw [hg]
              have hnot : y ∉ snap := by
                intro hmem
                exact hp' (by rw [← hyp', ((hmem_snap y).mp hmem).2.1])
              simp [hnot]
            rw [List.map_congr_left this, List.map_id']
          rw [List.filter_append, hgother hm1, hgother hm2]
          have hpagesplit' : pageBlocks db p'
              = m1.filter (fun x => x.pageId == p')
                ++ m2.filter (fun x => x.pageId == p') := by
            simp only [pageBlocks]
            rw [hmsplit, List.filter_append, List.filter_cons]
            have : (block.pageId == p') = false := by
              simp [Ne.symm hp']
            rw [this]
            simp
          rw [← hpagesplit']
          exact h3

/-- The state duplicateBlock leaves behind when block, content record and the
listed index all exist. -/
theorem duplicateBlock_eq {db : DB} {u b now : Nat} {block : Block} {pc : PageContent}
    {i : Nat} (hb : findBlock db b = some block)
    (hpc : findContent db block.pageId = some pc)
    (hidx : pc.blocks.findIdx? (fun r => refMatches r b) = some i) :
    (duplicateBlock db u b now).1 =
      { db with
        blocks :=
          ((db.blocks ++ [(⟨db.nextId, block.pageId, block.type, block.content,
              block.properties, block.children, block.position + 1, u, now, now⟩ : Block)]).filter
            (fun x => x.pageId == block.pageId && x.position > block.position
              && !(x.id == db.nextId))).foldl
            (fun acc x => updateFirst (fun y => y.id == x.id)
              (fun y => { y with position := x.position + 1, updatedAt := now }) acc)
            (db.blocks ++ [(⟨db.nextId, block.pageId, block.type, block.content,
              block.properties, block.children, block.position + 1, u, now, now⟩ : Block)]),
        contents := updateFirst (fun c => c.pageId == block.pageId)
          (setContent (some (insertAt pc.blocks (i + 1) (BlockRef.id db.nextId)))
            (pc.version + 1) u now) db.contents,
        nextId := db.nextId + 1 } := by
  unfold duplicateBlock
  rw [hb]
  dsimp only
  rw [hpc]
  dsimp only
  rw [hidx]

/-- duplicateBlock preserves the contiguity invariant. -/
theorem Inv_duplicateBlock {db : DB} (hInv : Inv db) (u b now : Nat) :
    Inv (duplicateBlock db u b now).1 := by
  obtain ⟨hfresh, hnod, horphan, hshape⟩ := hInv
  cases hb : findBlock db b with
  | none =>
    unfold duplicateBlock
    rw [hb]
    exact ⟨hfresh, hnod, horphan, hshape⟩
  | some block =>
    have hmemb : block ∈ db.blocks := List.mem_of_find?_eq_some hb
    have hidb : block.id = b := by simpa using List.find?_some hb
    cases hpc : findContent db block.pageId with
    | none =>
      exfalso
      have hempty := horphan block.pageId hpc
      have hmem' : block ∈ pageBlocks db block.pageId := mem_pageBlocks.mpr ⟨hmemb, rfl⟩
      rw [hempty] at hmem'
      cases hmem'
    | some pc =>
      obtain ⟨bl, hbl1, hbl2, hbl3⟩ := hshape block.pageId pc hpc
      have hblnod : (bl.map (fun x => x.id)).Nodup :=
        perm_ids_nodup hbl3 (pageBlocks_ids_nodup hnod block.pageId)
      have hblk : block ∈ bl := hbl3.mem_iff.mpr (mem_pageBlocks.mpr ⟨hmemb, rfl⟩)
      obtain ⟨l1, l2, hsplit, hl1, hl2⟩ := split_at_id hblnod hblk
      rw [hsplit] at hbl2
      rw [PosFrom_append] at hbl2
      obtain ⟨hpos1, hposc⟩ := hbl2
      have hbpos : block.position = (l1.length : Int) := by
        have := hposc.1
        simpa using this
      have hpos2 : PosFrom (l1.length + 1) l2 := by
        have := hposc.2
        simpa using this
      have hblsub : ∀ y ∈ bl, y ∈ db.blocks := by
        intro y hy
        exact (mem_pageBlocks.mp (hbl3.mem_iff.mp hy)).1
      have hblpg : ∀ y ∈ bl, y.pageId = block.pageId := by
        intro y hy
        exact (mem_pageBlocks.mp (hbl3.mem_iff.mp hy)).2
      -- the listed index of the original block
      have hidx : pc.blocks.findIdx? (fun r => refMatches r b) = some l1.length := by
        rw [hbl1, hsplit, List.map_append, List.map_cons, findIdx?_append_first]
        · simp
        · intro r hr
          obtain ⟨z, hz, rfl⟩ := List.mem_map.mp hr
          have : z.id ≠ b := by
            rw [← hidb]
            exact hl1 z hz
          simp [refMatches_id, this]
        · simp [refMatches_id, hidb]
      rw [duplicateBlock_eq hb hpc hidx]
      set nb : Block := ⟨db.nextId, block.pageId, block.type, block.content,
        block.properties, block.children, block.position + 1, u, now, now⟩ with hnb
      have hnbid : nb.id = db.nextId := rfl
      have hnbpg : nb.pageId = block.pageId := rfl
      have hnbpos : nb.position = block.position + 1 := rfl
      have hfreshne : ∀ x ∈ db.blocks, x.id ≠ db.nextId := by
        intro x hx h
        have := hfresh x hx
        omega
      have hnod1 : ((db.blocks ++ [nb]).map (fun x => x.id)).Nodup :=
        nodup_ids_append_fresh hnod (by intro x hx; rw [hnbid]; exact hfreshne x hx)
      set snap := db.blocks.filter
        (fun x => x.pageId == block.pageId && x.position > block.position) with hsnap
      have hsnapeq : (db.blocks ++ [nb]).filter
          (fun x => x.pageId == block.pageId && x.position > block.position
            && !(x.id == db.nextId)) = snap := by
        rw [List.filter_append, hsnap]
        have h2 : [nb].filter (fun x => x.pageId == block.pageId
            && x.position > block.position && !(x.id == db.nextId)) = [] := by
          simp [List.filter, hnbid]
        rw [h2, List.append_nil]
        apply List.filter_congr
        intro x hx
        have : (x.id == db.nextId) = false := by
          simpa using hfreshne x hx
        rw [this]
        simp
      have hsnapsub : ∀ x ∈ snap, x ∈ db.blocks := fun x hx => (List.mem_filter.mp hx).1
      have hsnapsub1 : ∀ x ∈ snap, x ∈ db.blocks ++ [nb] :=
        fun x hx => List.mem_append_left _ (hsnapsub x hx)
      have hsnapnod : (snap.map (fun x => x.id)).Nodup :=
        ((List.filter_sublist _).map _).nodup hnod
      have hmem_snap : ∀ x, x ∈ snap ↔
          x ∈ db.blocks ∧ x.pageId = block.pageId ∧ block.position < x.position := by
        intro x
        rw [hsnap, List.mem_filter]
        constructor
        · rintro ⟨h1, h2⟩
          simp only [Bool.and_eq_true, beq_iff_eq, decide_eq_true_eq] at h2
          exact ⟨h1, h2.1, h2.2⟩
        · rintro ⟨h1, h2, h3⟩
          refine ⟨h1, ?_⟩
          simp only [Bool.and_eq_true, beq_iff_eq, decide_eq_true_eq]
          exact ⟨h2, h3⟩
      have hnbnot : nb ∉ snap := by
        intro h
        exact hfreshne nb (hsnapsub nb h) hnbid
      set g : Block → Block := fun x =>
        if x ∈ snap then { x with position := x.position + 1, updatedAt := now } else x with hg
      have hfold := foldl_updateFirst_eq_map snap (fun a => a.id)
        (fun a x => { x with position := a.position + 1, updatedAt := now })
        (db.blocks ++ [nb]) hnod1 hsnapnod (fun a x => rfl)
      have hfoldg : snap.foldl (fun acc x => updateFirst (fun y => y.id == x.id)
            (fun y => { y with position := x.position + 1, updatedAt := now }) acc)
            (db.blocks ++ [nb])
          = (db.blocks ++ [nb]).map g := by
        rw [hfold]
        apply List.map_congr_left
        intro x hx
        rw [find?_id_self hnod1 hsnapsub1 hx]
        by_cases hxs : x ∈ snap
        · rw [if_pos hxs]
          simp only [hg, if_pos hxs]
        · rw [if_neg hxs]
          simp only [hg, if_neg hxs]
      have hgid : ∀ y, (g y).id = y.id := by
        intro y
        rw [hg]
        by_cases h : y ∈ snap <;> simp [h]
      have hgpg : ∀ y, (g y).pageId = y.pageId := by
        intro y
        rw [hg]
        by_cases h : y ∈ snap <;> simp [h]
      have hgnb : g nb = nb := by
        rw [hg]
        simp [hnbnot]
      rw [hsnapeq, hfoldg, List.map_append]
      have hmapnb : [nb].map g = [nb] := by
        simp [hgnb]
      rw [hmapnb]
      refine ⟨?_, ?_, ?_, ?_⟩
      -- freshness below the bumped generator
      · intro x hx
        rcases List.mem_append.mp hx with h | h
        · obtain ⟨z, hz, rfl⟩ := List.mem_map.mp h
          rw [hgid]
          show z.id < db.nextId + 1
          have := hfresh z hz
          omega
        · have hxnb : x = nb := by simpa using h
          rw [hxnb, hnbid]
          show db.nextId < db.nextId + 1
          omega
      -- distinct ids
      · have hidcol : ((db.blocks.map g ++ [nb]).map (fun x => x.id))
            = ((db.blocks ++ [nb]).map (fun x => x.id)) := by
          rw [List.map_append, List.map_append, List.map_map]
          congr 1
          exact List.map_congr_left (fun y _ => hgid y)
        rw [hidcol]
        exact hnod1
      -- orphan-freeness
      · intro p' hnone'
        by_cases hp' : p' = block.pageId
        · subst hp'
          simp only [findContent] at hnone'
          rw [findContent_updateFirst_set hpc] at hnone'
          cases hnone'
        · have hother : findContent db p' = none := by
            simp only [findContent] at hnone' ⊢
            rw [findContent_updateFirst_other (Ne.symm hp')] at hnone'
            · exact hnone'
            · intro c
              rfl
          have hold := horphan p' hother
          simp only [pageBlocks] at hold ⊢
          rw [List.filter_append, filter_map_pageId hgpg, hold]
          have hnbf : [nb].filter (fun x => x.pageId == p') = [] := by
            have : (nb.pageId == p') = false := by
              rw [hnbpg]
              simp [Ne.symm hp']
            simp [List.filter, this]
          rw [hnbf]
          rfl
      -- content shape
      · intro p' pc' hfind'
        by_cases hp' : p' = block.pageId
        · subst hp'
          simp only [findContent] at hfind'
          rw [findContent_updateFirst_set hpc] at hfind'
          obtain rfl : setContent (some (insertAt pc.blocks (l1.length + 1)
              (BlockRef.id db.nextId))) (pc.version + 1) u now pc = pc' := by
            injection hfind'
          refine ⟨l1 ++ block :: nb :: l2.map (fun y =>
            { y with position := y.position + 1, updatedAt := now }), ?_, ?_, ?_⟩
          · show insertAt pc.blocks (l1.length + 1) (BlockRef.id db.nextId) = _
            rw [hbl1, hsplit, List.map_append, List.map_cons]
            have hre : l1.map (fun x => BlockRef.id x.id)
                ++ BlockRef.id block.id :: l2.map (fun x => BlockRef.id x.id)
                = (l1.map (fun x => BlockRef.id x.id) ++ [BlockRef.id block.id])
                  ++ l2.map (fun x => BlockRef.id x.id) := by
              simp
            rw [hre]
            have hlen : (l1.map (fun x => BlockRef.id x.id)
                ++ [BlockRef.id block.id]).length = l1.length + 1 := by
              simp
            rw [← hlen, insertAt_length_append]
            simp only [List.map_append, List.map_cons, List.map_map]
            have hl2m : l2.map ((fun x => BlockRef.id x.id) ∘ (fun y =>
                ({ y with position := y.position + 1, updatedAt := now } : Block)))
                = l2.map (fun x => BlockRef.id x.id) := by
              apply List.map_congr_left
              intro y _
              rfl
            rw [hl2m]
            simp [hnbid]
          · rw [PosFrom_append]
            refine ⟨hpos1, ?_, ?_, ?_⟩
            · simpa using hbpos
            · rw [hnbpos, hbpos]
              push_cast
              ring
            · have := PosFrom_map_bump (g := fun y =>
                ({ y with position := y.position + 1, updatedAt := now } : Block))
                (fun y => rfl) hpos2
              simpa using this
          · -- permutation with the page's blocks after the shift
            have hfilter : (db.blocks.map g ++ [nb]).filter
                (fun x => x.pageId == block.pageId)
                = (pageBlocks db block.pageId).map g ++ [nb] := by
              rw [List.filter_append, filter_map_pageId hgpg]
              have h1 : [nb].filter (fun x => x.pageId == block.pageId) = [nb] := by
                simp [List.filter, hnbpg]
              rw [h1]
              rfl
            show (l1 ++ block :: nb :: l2.map (fun y =>
                ({ y with position := y.position + 1, updatedAt := now } : Block))).Perm
              ((db.blocks.map g ++ [nb]).filter (fun x => x.pageId == block.pageId))
            rw [hfilter]
            have hblg : bl.map g = l1 ++ block :: l2.map (fun y =>
                ({ y with position := y.position + 1, updatedAt := now } : Block)) := by
              rw [hsplit, List.map_append, List.map_cons]
              have hgl1 : l1.map g = l1 := by
                have : ∀ y ∈ l1, g y = y := by
                  intro y hy
                  rw [hg]
                  have hnot : y ∉ snap := by
                    intro hmem
                    have hlt := PosFrom_lt_of_mem hpos1 hy
                    have := ((hmem_snap y).mp hmem).2.2
                    rw [hbpos] at this
                    push_cast at hlt
                    omega
                  simp [hnot]
                rw [List.map_congr_left this, List.map_id']
              have hgblock : g block = block := by
                rw [hg]
                have hnot : block ∉ snap := by
                  intro hmem
                  have := ((hmem_snap block).mp hmem).2.2
                  omega
                simp [hnot]
              have hgl2 : l2.map g = l2.map (fun y =>
                  ({ y with position := y.position + 1, updatedAt := now } : Block)) := by
                apply List.map_congr_left
                intro y hy
                have hybl : y ∈ bl := by
                  rw [hsplit]
                  exact List.mem_append_right _ (List.mem_cons_of_mem _ hy)
                have hy2 : y ∈ snap := by
                  apply (hmem_snap y).mpr
                  refine ⟨hblsub y hybl, hblpg y hybl, ?_⟩
                  have := PosFrom_le_of_mem hpos2 hy
                  rw [hbpos]
                  push_cast at this ⊢
                  omega
                rw [hg]
                simp [hy2]
              rw [hgl1, hgblock, hgl2]
            have hmid := @List.perm_middle Block nb (l1 ++ [block])
              (l2.map (fun y =>
                ({ y with position := y.position + 1, updatedAt := now } : Block)))
            have hassoc1 : (l1 ++ [block]) ++ nb :: l2.map (fun y =>
                ({ y with position := y.position + 1, updatedAt := now } : Block))
                = l1 ++ block :: nb :: l2.map (fun y =>
                ({ y with position := y.position + 1, updatedAt := now } : Block)) := by
              simp
            have hassoc2 : (l1 ++ [block]) ++ l2.map (fun y =>
                ({ y with position := y.position + 1, updatedAt := now } : Block))
                = l1 ++ block :: l2.map (fun y =>
                ({ y with position := y.position + 1, updatedAt := now } : Block)) := by
              simp
            rw [hassoc1, hassoc2] at hmid
            refine hmid.trans ?_
            have hC : (l1 ++ block :: l2.map (fun y =>
                ({ y with position := y.position + 1, updatedAt := now } : Block))).Perm
                ((pageBlocks db block.pageId).map g) := by
              rw [← hblg]
              exact hbl3.map g
            exact (hC.cons nb).trans (List.perm_append_singleton nb _).symm
        · have hother : findContent db p' = some pc' := by
            simp only [findContent] at hfind' ⊢
            rw [findContent_updateFirst_other (Ne.symm hp')] at hfind'
            · exact hfind'
            · intro c
              rfl
          obtain ⟨bl'', h1, h2, h3⟩ := hshape p' pc' hother
          refine ⟨bl'', h1, h2, ?_⟩
          show bl''.Perm ((db.blocks.map g ++ [nb]).filter (fun x => x.pageId == p'))
          rw [List.filter_append, filter_map_pageId hgpg]
          have hnbf : [nb].filter (fun x => x.pageId == p') = [] := by
            have : (nb.pageId == p') = false := by
              rw [hnbpg]
              simp [Ne.symm hp']
            simp [List.filter, this]
          rw [hnbf, List.append_nil]
          have hgone : ∀ y ∈ db.blocks.filter (fun x => x.pageId == p'), g y = y := by
            intro y hy
            have hyp' : y.pageId = p' := by
              have := (List.mem_filter.mp hy).2
              simpa using this
            rw [hg]
            have hnot : y ∉ snap := by
              intro hmem
              exact hp' (by rw [← hyp', ((hmem_snap y).mp hmem).2.1])
            simp [hnot]
          rw [List.map_congr_left hgone, List.map_id']
          exact h3

/-- The renumbering loop of updateBlockPosition: an enum-keyed snapshot loop is
an elementwise map renumbering the snapshot's members by their index. -/
theorem foldl_enum_exists (l bs : List Block)
    (hbs : (bs.map (fun x => x.id)).Nodup)
    (hl : (l.map (fun x => x.id)).Nodup)
    (hsub : ∀ x ∈ l, x ∈ bs)
    (g : Nat → Block → Block)
    (hgid : ∀ i x, (g i x).id = x.id)
    (hgpg : ∀ i x, (g i x).pageId = x.pageId) :
    ∃ F : Block → Block,
      l.enum.foldl (fun acc ib => updateFirst (fun x => x.id == ib.2.id)
          (fun x => g ib.1 x) acc) bs = bs.map F
      ∧ (∀ x, (F x).id = x.id)
      ∧ (∀ x, (F x).pageId = x.pageId)
      ∧ (∀ x ∈ bs, x ∉ l → F x = x)
      ∧ l.map F = l.enum.map (fun ib => g ib.1 ib.2) := by
  have henodup : (l.enum.map (fun a => a.2.id)).Nodup := by
    have h : l.enum.map (fun a => a.2.id) = l.map (fun x => x.id) := by
      rw [show (fun a : Nat × Block => a.2.id) = ((fun x : Block => x.id) ∘ Prod.snd) from rfl,
        ← List.map_map, List.enum_map_snd]
    rw [h]
    exact hl
  refine ⟨fun x =>
    ((l.enum.find? (fun a => a.2.id == x.id)).map (fun a => g a.1 x)).getD x,
    ?_, ?_, ?_, ?_, ?_⟩
  · rw [foldl_updateFirst_eq_map l.enum (fun a => a.2.id) (fun a x => g a.1 x) bs hbs henodup
      (fun a x => hgid a.1 x)]
    apply List.map_congr_left
    intro x _
    beta_reduce
    cases hfx : l.enum.find? (fun a => a.2.id == x.id) with
    | none => simp
    | some a => simp
  · intro x
    cases hfx : l.enum.find? (fun a => a.2.id == x.id) with
    | none => simp [hfx]
    | some a => simp [hfx, hgid]
  · intro x
    cases hfx : l.enum.find? (fun a => a.2.id == x.id) with
    | none => simp [hfx]
    | some a => simp [hfx, hgpg]
  · intro x hxbs hx
    have hnone : l.enum.find? (fun a => a.2.id == x.id) = none := by
      rw [List.find?_eq_none]
      intro a ha
      have ha2 : a.2 ∈ l := by
        have := List.mem_map_of_mem Prod.snd ha
        rwa [List.enum_map_snd] at this
      intro heq
      have hida : a.2.id = x.id := by simpa using heq
      have : a.2 = x := eq_of_mem_of_id_eq hbs (hsub a.2 ha2) hxbs hida
      exact hx (this ▸ ha2)
    beta_reduce
    rw [hnone]
    rfl
  · exact map_find_enum_eq l hl (fun a x => g a.1 x)

/-- The state updateBlockPosition leaves behind on the successful reordering
path. -/
theorem updateBlockPosition_eq {db : DB} {u b : Nat} {pos : Int} {now : Nat}
    {block : Block} {pc : PageContent}
    (hb : findBlock db b = some block) (hpc : findContent db block.pageId = some pc)
    (hr : ¬(pos < 0 ∨ pos ≥ (pc.blocks.length : Int))) (hne : ¬block.position = pos) :
    (updateBlockPosition db u b pos now).1 =
      { db with
        blocks := ((insertAt ((sortByPos (db.blocks.filter
              (fun x => x.pageId == block.pageId))).filter
              (fun x => !(x.id == b))) pos.toNat block).enum).foldl
            (fun acc ib => updateFirst (fun x => x.id == ib.2.id)
              (fun x => { x with position := (ib.1 : Int), updatedAt := now }) acc) db.blocks,
        contents := updateFirst (fun c => c.pageId == block.pageId)
          (setContent (some ((insertAt ((sortByPos (db.blocks.filter
                (fun x => x.pageId == block.pageId))).filter
                (fun x => !(x.id == b))) pos.toNat block).map (fun x => BlockRef.id x.id)))
            (pc.version + 1) u now) db.contents } := by
  unfold updateBlockPosition
  rw [hb]
  dsimp only
  rw [hpc]
  dsimp only
  rw [if_neg hr, if_neg (by simpa using hne)]

/-- updateBlockPosition preserves the contiguity invariant. -/
theorem Inv_updateBlockPosition {db : DB} (hInv : Inv db) (u b : Nat) (pos : Int) (now : Nat) :
    Inv (updateBlockPosition db u b pos now).1 := by
  obtain ⟨hfresh, hnod, horphan, hshape⟩ := hInv
  cases hb : findBlock db b with
  | none =>
    unfold updateBlockPosition
    rw [hb]
    exact ⟨hfresh, hnod, horphan, hshape⟩
  | some block =>
    have hmemb : block ∈ db.blocks := List.mem_of_find?_eq_some hb
    have hidb : block.id = b := by simpa using List.find?_some hb
    cases hpc : findContent db block.pageId with
    | none =>
      unfold updateBlockPosition
      rw [hb]
      dsimp only
      rw [hpc]
      exact ⟨hfresh, hnod, horphan, hshape⟩
    | some pc =>
      by_cases hr : pos < 0 ∨ pos ≥ (pc.blocks.length : Int)
      · unfold updateBlockPosition
        rw [hb]
        dsimp only
        rw [hpc]
        dsimp only
        rw [if_pos hr]
        exact ⟨hfresh, hnod, horphan, hshape⟩
      · by_cases heq : block.position = pos
        · unfold updateBlockPosition
          rw [hb]
          dsimp only
          rw [hpc]
          dsimp only
          rw [if_neg hr, if_pos (by simpa using heq)]
          exact ⟨hfresh, hnod, horphan, hshape⟩
        · rw [updateBlockPosition_eq hb hpc hr heq]
          obtain ⟨bl, hbl1, hbl2, hbl3⟩ := hshape block.pageId pc hpc
          set ordered := insertAt ((sortByPos (db.blocks.filter
            (fun x => x.pageId == block.pageId))).filter
            (fun x => !(x.id == b))) pos.toNat block with hord
          -- ordered is a permutation of the page's blocks
          obtain ⟨m1, m2, hmsplit, hm1, hm2⟩ := split_at_id hnod hmemb
          have hpgsplit : db.blocks.filter (fun x => x.pageId == block.pageId)
              = m1.filter (fun x => x.pageId == block.pageId)
                ++ block :: m2.filter (fun x => x.pageId == block.pageId) := by
            rw [hmsplit, List.filter_append, List.filter_cons]
            simp
          have hfperm : ((sortByPos (db.blocks.filter
              (fun x => x.pageId == block.pageId))).filter (fun x => !(x.id == b))).Perm
              (m1.filter (fun x => x.pageId == block.pageId)
                ++ m2.filter (fun x => x.pageId == block.pageId)) := by
            refine ((sortByPos_perm _).filter _).trans ?_
            rw [hpgsplit, List.filter_append, List.filter_cons]
            have hbq : (!(block.id == b)) = false := by
              simp [hidb]
            rw [hbq]
            simp only [Bool.false_eq_true, if_false]
            have hq1 : (m1.filter (fun x => x.pageId == block.pageId)).filter
                (fun x => !(x.id == b))
                = m1.filter (fun x => x.pageId == block.pageId) := by
              rw [List.filter_eq_self]
              intro y hy
              have : y.id ≠ b := by
                rw [← hidb]
                exact hm1 y (List.mem_of_mem_filter hy)
              simp [this]
            have hq2 : (m2.filter (fun x => x.pageId == block.pageId)).filter
                (fun x => !(x.id == b))
                = m2.filter (fun x => x.pageId == block.pageId) := by
              rw [List.filter_eq_self]
              intro y hy
              have : y.id ≠ b := by
                rw [← hidb]
                exact hm2 y (List.mem_of_mem_filter hy)
              simp [this]
            rw [hq1, hq2]
          have hordperm : ordered.Perm (db.blocks.filter
              (fun x => x.pageId == block.pageId)) := by
            refine (insertAt_perm _ _ _).trans ?_
            refine ((hfperm).cons block).trans ?_
            rw [hpgsplit]
            exact List.perm_middle.symm
          have hordnod : (ordered.map (fun x => x.id)).Nodup := by
            apply perm_ids_nodup hordperm
            exact pageBlocks_ids_nodup hnod block.pageId
          have hordsub : ∀ x ∈ ordered, x ∈ db.blocks := by
            intro x hx
            exact (List.mem_filter.mp (hordperm.mem_iff.mp hx)).1
          have hordpg : ∀ x ∈ ordered, x.pageId = block.pageId := by
            intro x hx
            have := (List.mem_filter.mp (hordperm.mem_iff.mp hx)).2
            simpa using this
          obtain ⟨F, hF1, hFid, hFpg, hFout, hFord⟩ := foldl_enum_exists ordered db.blocks
            hnod hordnod hordsub
            (fun i x => { x with position := (i : Int), updatedAt := now })
            (fun i x => rfl) (fun i x => rfl)
          rw [hF1]
          refine ⟨?_, ?_, ?_, ?_⟩
          · intro x hx
            obtain ⟨z, hz, rfl⟩ := List.mem_map.mp hx
            rw [hFid]
            exact hfresh z hz
          · have : ((db.blocks.map F).map (fun x => x.id)) = db.blocks.map (fun x => x.id) := by
              rw [List.map_map]
              exact List.map_congr_left (fun y _ => hFid y)
            rw [this]
            exact hnod
          · intro p' hnone'
            by_cases hp' : p' = block.pageId
            · subst hp'
              simp only [findContent] at hnone'
              rw [findContent_updateFirst_set hpc] at hnone'
              cases hnone'
            · have hother : findContent db p' = none := by
                simp only [findContent] at hnone' ⊢
                rw [findContent_updateFirst_other (Ne.symm hp')] at hnone'
                · exact hnone'
                · intro c
                  rfl
              have hold := horphan p' hother
              simp only [pageBlocks] at hold ⊢
              rw [filter_map_pageId hFpg, hold]
              rfl
          · intro p' pc' hfind'
            by_cases hp' : p' = block.pageId
            · subst hp'
              simp only [findContent] at hfind'
              rw [findContent_updateFirst_set hpc] at hfind'
              obtain rfl : setContent (some (ordered.map (fun x => BlockRef.id x.id)))
                  (pc.version + 1) u now pc = pc' := by
                injection hfind'
              refine ⟨ordered.enum.map (fun ib =>
                ({ ib.2 with position := (ib.1 : Int), updatedAt := now } : Block)), ?_, ?_, ?_⟩
              · show ordered.map (fun x => BlockRef.id x.id) = _
                rw [List.map_map]
                have h2 : ((fun x => BlockRef.id x.id) ∘ (fun ib : Nat × Block =>
                    ({ ib.2 with position := (ib.1 : Int), updatedAt := now } : Block)))
                    = ((fun x : Block => BlockRef.id x.id) ∘ Prod.snd) := rfl
                rw [h2, ← List.map_map, List.enum_map_snd]
              · exact PosFrom_enumFrom (g := fun i x =>
                  ({ x with position := (i : Int), updatedAt := now } : Block))
                  (fun i x => rfl) ordered 0
              · show (ordered.enum.map (fun ib =>
                  ({ ib.2 with position := (ib.1 : Int), updatedAt := now } : Block))).Perm
                  ((db.blocks.map F).filter (fun x => x.pageId == block.pageId))
                rw [filter_map_pageId hFpg, ← hFord]
                exact hordperm.map F
            · have hother : findContent db p' = some pc' := by
                simp only [findContent] at hfind' ⊢
                rw [findContent_updateFirst_other (Ne.symm hp')] at hfind'
                · exact hfind'
                · intro c
                  rfl
              obtain ⟨bl'', h1, h2, h3⟩ := hshape p' pc' hother
              refine ⟨bl'', h1, h2, ?_⟩
              show bl''.Perm ((db.blocks.map F).filter (fun x => x.pageId == p'))
              rw [filter_map_pageId hFpg]
              have hFone : ∀ y ∈ db.blocks.filter (fun x => x.pageId == p'), F y = y := by
                intro y hy
                have hyp' : y.pageId = p' := by
                  have := (List.mem_filter.mp hy).2
                  simpa using this
                apply hFout y (List.mem_of_mem_filter hy)
                intro hyo
                exact hp' (by rw [← hyp', hordpg y hyo])
              rw [List.map_congr_left hFone, List.map_id']
              exact h3

/-- Restricting the loop body by a decidable snapshot condition is looping
over the filtered snapshot. -/
theorem foldl_ite_eq_foldl_filter {α β : Type} (S : List α) (P : α → Prop)
    [DecidablePred P] (step : β → α → β) (init : β) :
    S.foldl (fun acc a => if P a then step acc a else acc) init
      = (S.filter (fun a => decide (P a))).foldl step init := by
  induction S generalizing init with
  | nil => rfl
  | cons a S ih =>
    by_cases h : P a
    · simp [List.filter_cons, h, ih]
    · simp [List.filter_cons, h, ih]

/-- The state createBlock leaves behind on a page with no content record. -/
theorem createBlock_eq_new_none {db : DB} {u p : Nat} {ty : String} {c : Option String}
    {props : Option (List (String × String))} {now : Nat}
    (hfind : findContent db p = none) :
    (createBlock db u p ty c none props now).1 =
      { db with
        blocks := db.blocks ++ [(⟨db.nextId, p, ty, c.getD "", props.getD [], [],
          (((0 : Nat)) : Int), u, now, now⟩ : Block)],
        contents := db.contents ++ [(⟨p, [BlockRef.id db.nextId], 1, u, now⟩ : PageContent)],
        nextId := db.nextId + 1 } := by
  unfold createBlock
  dsimp only
  rw [hfind]
  simp

/-- The state createBlock leaves behind on a page with no content record when
a position is supplied (the position is stored verbatim). -/
theorem createBlock_eq_new_some {db : DB} {u p : Nat} {ty : String} {c : Option String}
    {props : Option (List (String × String))} {now : Nat} {q : Int}
    (hfind : findContent db p = none) :
    (createBlock db u p ty c (some q) props now).1 =
      { db with
        blocks := db.blocks ++ [(⟨db.nextId, p, ty, c.getD "", props.getD [], [],
          q, u, now, now⟩ : Block)],
        contents := db.contents ++ [(⟨p, [BlockRef.id db.nextId], 1, u, now⟩ : PageContent)],
        nextId := db.nextId + 1 } := by
  unfold createBlock
  dsimp only
  rw [hfind]

/-- The state createBlock leaves behind appending to an existing content
record (no position supplied). -/
theorem createBlock_eq_append {db : DB} {u p : Nat} {ty : String} {c : Option String}
    {props : Option (List (String × String))} {now : Nat} {pc : PageContent}
    (hfind : findContent db p = some pc) :
    (createBlock db u p ty c none props now).1 =
      { db with
        blocks := db.blocks ++ [(⟨db.nextId, p, ty, c.getD "", props.getD [], [],
          ((pc.blocks.length : Nat) : Int), u, now, now⟩ : Block)],
        contents := updateFirst (fun x => x.pageId == p)
          (setContent (some (pc.blocks ++ [BlockRef.id db.nextId]))
            (pc.version + 1) u now) db.contents,
        nextId := db.nextId + 1 } := by
  unfold createBlock
  dsimp only
  rw [hfind]
  simp

/-- The state createBlock leaves behind splicing into an existing content
record at a supplied position. -/
theorem createBlock_eq_pos {db : DB} {u p : Nat} {ty : String} {c : Option String}
    {props : Option (List (String × String))} {now : Nat} {q : Int} {pc : PageContent}
    {ids : List Nat}
    (hfind : findContent db p = some pc) (hids : refIds pc.blocks = some ids) :
    (createBlock db u p ty c (some q) props now).1 =
      { db with
        blocks :=
          (sortByPos ((db.blocks ++ [(⟨db.nextId, p, ty, c.getD "", props.getD [], [],
              q, u, now, now⟩ : Block)]).filter
              (fun x => x.pageId == p && ids.contains x.id))).foldl
            (fun acc x =>
              if x.position ≥ q then
                updateFirst (fun y => y.id == x.id)
                  (fun y => { y with position := x.position + 1, updatedAt := now }) acc
              else acc)
            (db.blocks ++ [(⟨db.nextId, p, ty, c.getD "", props.getD [], [],
              q, u, now, now⟩ : Block)]),
        contents := updateFirst (fun x => x.pageId == p)
          (setContent (some (jsInsert pc.blocks q (BlockRef.id db.nextId)))
            (pc.version + 1) u now) db.contents,
        nextId := db.nextId + 1 } := by
  unfold createBlock
  dsimp only
  rw [hfind]
  dsimp only
  rw [hids]

/-- Inserting a fresh block and a fresh version-1 content record for a page
that had neither preserves the invariant. -/
theorem Inv_newpage {db : DB} (hInv : Inv db) {p u now : Nat} {nb : Block}
    (hfind : findContent db p = none)
    (hnbid : nb.id = db.nextId) (hnbpg : nb.pageId = p)
    (hnbpos : nb.position = ((0 : Nat) : Int)) :
    Inv { db with
          blocks := db.blocks ++ [nb],
          contents := db.contents ++ [(⟨p, [BlockRef.id db.nextId], 1, u, now⟩ : PageContent)],
          nextId := db.nextId + 1 } := by
  obtain ⟨hfresh, hnod, horphan, hshape⟩ := hInv
  have hfreshne : ∀ x ∈ db.blocks, x.id ≠ nb.id := by
    intro x hx h
    rw [hnbid] at h
    have := hfresh x hx
    omega
  refine ⟨?_, ?_, ?_, ?_⟩
  · intro x hx
    rcases List.mem_append.mp hx with h | h
    · have := hfresh x h
      show x.id < db.nextId + 1
      omega
    · have hxnb : x = nb := by simpa using h
      rw [hxnb, hnbid]
      show db.nextId < db.nextId + 1
      omega
  · exact nodup_ids_append_fresh hnod hfreshne
  · intro p' hnone'
    simp only [findContent] at hnone'
    rw [List.find?_append] at hnone'
    cases hc : db.contents.find? (fun x => x.pageId == p') with
    | some x =>
      rw [hc] at hnone'
      simp at hnone'
    | none =>
      rw [hc, Option.none_or] at hnone'
      have hne : ¬ p = p' := by
        intro h
        rw [List.find?_eq_none] at hnone'
        have := hnone' ⟨p, [BlockRef.id db.nextId], 1, u, now⟩ (List.mem_singleton_self _)
        simp [h] at this
      have hold : pageBlocks db p' = [] := horphan p' hc
      simp only [pageBlocks] at hold ⊢
      rw [List.filter_append, hold]
      have hnbf : [nb].filter (fun x => x.pageId == p') = [] := by
        have hb : (nb.pageId == p') = false := by
          rw [hnbpg]
          simp [hne]
        simp [List.filter, hb]
      rw [hnbf]
      rfl
  · intro p' pc' hfind'
    simp only [findContent] at hfind'
    rw [List.find?_append] at hfind'
    by_cases hp' : p' = p
    · subst hp'
      have hfind2 : db.contents.find? (fun x => x.pageId == p') = none := hfind
      rw [hfind2, Option.none_or] at hfind'
      have hpceq : pc' = ⟨p', [BlockRef.id db.nextId], 1, u, now⟩ := by
        simp [List.find?] at hfind'
        exact hfind'.symm
      refine ⟨[nb], ?_, ?_, ?_⟩
      · rw [hpceq]
        show [BlockRef.id db.nextId] = [BlockRef.id nb.id]
        rw [hnbid]
      · exact ⟨hnbpos, trivial⟩
      · show [nb].Perm ((db.blocks ++ [nb]).filter (fun x => x.pageId == p'))
        rw [List.filter_append]
        have hold : pageBlocks db p' = [] := horphan p' hfind
        simp only [pageBlocks] at hold
        rw [hold]
        have hnbf : [nb].filter (fun x => x.pageId == p') = [nb] := by
          have hb : (nb.pageId == p') = true := by
            rw [hnbpg]
            simp
          simp [List.filter, hb]
        rw [hnbf]
        exact List.Perm.refl _
    · have hsing : ([(⟨p, [BlockRef.id db.nextId], 1, u, now⟩ : PageContent)]).find?
          (fun x => x.pageId == p') = none := by
        have hb : (p == p') = false := by
          simp [Ne.symm hp']
        simp [List.find?, hb]
      rw [hsing, Option.or_none] at hfind'
      obtain ⟨bl'', h1, h2, h3⟩ := hshape p' pc' hfind'
      refine ⟨bl'', h1, h2, ?_⟩
      show bl''.Perm ((db.blocks ++ [nb]).filter (fun x => x.pageId == p'))
      rw [List.filter_append]
      have hnbf : [nb].filter (fun x => x.pageId == p') = [] := by
        have hb : (nb.pageId == p') = false := by
          rw [hnbpg]
          simp [Ne.symm hp']
        simp [List.filter, hb]
      rw [hnbf, List.append_nil]
      exact h3

/-- createBlock with no supplied position appends the new block at the end of
an existing page, preserving the invariant. -/
theorem Inv_createBlock_append {db : DB} (hInv : Inv db) {u p : Nat} {ty : String}
    {c : Option String} {props : Option (List (String × String))} {now : Nat}
    {pc : PageContent} (hfind : findContent db p = some pc) :
    Inv (createBlock db u p ty c none props now).1 := by
  obtain ⟨hfresh, hnod, horphan, hshape⟩ := hInv
  rw [createBlock_eq_append hfind]
  obtain ⟨bl, hbl1, hbl2, hbl3⟩ := hshape p pc hfind
  have hlen : pc.blocks.length = bl.length := by
    rw [hbl1]
    simp
  set nb : Block := ⟨db.nextId, p, ty, c.getD "", props.getD [], [],
    ((pc.blocks.length : Nat) : Int), u, now, now⟩ with hnb
  have hnbid : nb.id = db.nextId := rfl
  have hnbpg : nb.pageId = p := rfl
  have hfreshne : ∀ x ∈ db.blocks, x.id ≠ nb.id := by
    intro x hx h
    have := hfresh x hx
    rw [hnbid] at h
    omega
  refine ⟨?_, ?_, ?_, ?_⟩
  · intro x hx
    rcases List.mem_append.mp hx with h | h
    · have := hfresh x h
      show x.id < db.nextId + 1
      omega
    · have hxnb : x = nb := by simpa using h
      rw [hxnb, hnbid]
      show db.nextId < db.nextId + 1
      omega
  · exact nodup_ids_append_fresh hnod hfreshne
  · intro p' hnone'
    by_cases hp' : p' = p
    · subst hp'
      simp only [findContent] at hnone'
      rw [findContent_updateFirst_set hfind] at hnone'
      cases hnone'
    · have hother : findContent db p' = none := by
        simp only [findContent] at hnone' ⊢
        rw [findContent_updateFirst_other (Ne.symm hp')] at hnone'
        · exact hnone'
        · intro x
          rfl
      have hold := horphan p' hother
      simp only [pageBlocks] at hold ⊢
      rw [List.filter_append, hold]
      have hnbf : [nb].filter (fun x => x.pageId == p') = [] := by
        have hb : (nb.pageId == p') = false := by
          rw [hnbpg]
          simp [Ne.symm hp']
        simp [List.filter, hb]
      rw [hnbf]
      rfl
  · intro p' pc' hfind'
    by_cases hp' : p' = p
    · subst hp'
      simp only [findContent] at hfind'
      rw [findContent_updateFirst_set hfind] at hfind'
      obtain rfl : setContent (some (pc.blocks ++ [BlockRef.id db.nextId]))
          (pc.version + 1) u now pc = pc' := by
        injection hfind'
      refine ⟨bl ++ [nb], ?_, ?_, ?_⟩
      · show pc.blocks ++ [BlockRef.id db.nextId] = _
        rw [List.map_append, ← hbl1]
        rfl
      · rw [PosFrom_append]
        refine ⟨hbl2, ?_, trivial⟩
        show nb.position = ((0 + bl.length : Nat) : Int)
        have : nb.position = ((pc.blocks.length : Nat) : Int) := rfl
        rw [this, hlen]
        simp
      · show (bl ++ [nb]).Perm ((db.blocks ++ [nb]).filter (fun x => x.pageId == p'))
        rw [List.filter_append]
        have hnbf : [nb].filter (fun x => x.pageId == p') = [nb] := by
          have hb : (nb.pageId == p') = true := by
            rw [hnbpg]
            simp
          simp [List.filter, hb]
        rw [hnbf]
        exact List.Perm.append_right [nb] hbl3
    · have hother : findContent db p' = some pc' := by
        simp only [findContent] at hfind' ⊢
        rw [findContent_updateFirst_other (Ne.symm hp')] at hfind'
        · exact hfind'
        · intro x
          rfl
      obtain ⟨bl'', h1, h2, h3⟩ := hshape p' pc' hother
      refine ⟨bl'', h1, h2, ?_⟩
      show bl''.Perm ((db.blocks ++ [nb]).filter (fun x => x.pageId == p'))
      rw [List.filter_append]
      have hnbf : [nb].filter (fun x => x.pageId == p') = [] := by
        have hb : (nb.pageId == p') = false := by
          rw [hnbpg]
          simp [Ne.symm hp']
        simp [List.filter, hb]
      rw [hnbf, List.append_nil]
      exact h3

/-- createBlock with a supplied position in [0, count] splices into an
existing page, preserving the invariant. -/
theorem Inv_createBlock_pos {db : DB} (hInv : Inv db) {u p : Nat} {ty : String}
    {c : Option String} {props : Option (List (String × String))} {now : Nat}
    {q : Int} {pc : PageContent} (hfind : findContent db p = some pc)
    (hq0 : 0 ≤ q) (hqlen : q ≤ (pc.blocks.length : Int)) :
    Inv (createBlock db u p ty c (some q) props now).1 := by
  obtain ⟨hfresh, hnod, horphan, hshape⟩ := hInv
  obtain ⟨bl, hbl1, hbl2, hbl3⟩ := hshape p pc hfind
  have hids : refIds pc.blocks = some (bl.map (fun x => x.id)) := by
    rw [hbl1]
    exact refIds_map_id bl
  have hlen : pc.blocks.length = bl.length := by
    rw [hbl1]
    simp
  have hblsub : ∀ y ∈ bl, y ∈ db.blocks := by
    intro y hy
    exact (mem_pageBlocks.mp (hbl3.mem_iff.mp hy)).1
  have hblpg : ∀ y ∈ bl, y.pageId = p := by
    intro y hy
    exact (mem_pageBlocks.mp (hbl3.mem_iff.mp hy)).2
  rw [createBlock_eq_pos hfind hids]
  set nb : Block := ⟨db.nextId, p, ty, c.getD "", props.getD [], [], q, u, now, now⟩ with hnb
  have hnbid : nb.id = db.nextId := rfl
  have hnbpg : nb.pageId = p := rfl
  have hnbpos : nb.position = q := rfl
  have hfreshne : ∀ x ∈ db.blocks, x.id ≠ db.nextId := by
    intro x hx h
    have := hfresh x hx
    omega
  have hnod1 : ((db.blocks ++ [nb]).map (fun x => x.id)).Nodup :=
    nodup_ids_append_fresh hnod (by intro x hx; rw [hnbid]; exact hfreshne x hx)
  have hcont_nb : ((bl.map (fun x => x.id)).contains nb.id) = false := by
    cases hcb : (bl.map (fun x => x.id)).contains nb.id
    · rfl
    · exfalso
      have hmem : nb.id ∈ bl.map (fun x => x.id) := List.mem_of_elem_eq_true hcb
      obtain ⟨y, hy, hyid⟩ := List.mem_map.mp hmem
      exact hfreshne y (hblsub y hy) hyid
  have hfilter1 : (db.blocks ++ [nb]).filter
      (fun x => x.pageId == p && (bl.map (fun x => x.id)).contains x.id)
      = db.blocks.filter (fun x => x.pageId == p) := by
    rw [List.filter_append]
    have h2 : [nb].filter
        (fun x => x.pageId == p && (bl.map (fun x => x.id)).contains x.id) = [] := by
      rw [List.filter_cons]
      rw [hcont_nb, Bool.and_false]
      simp
    rw [h2, List.append_nil]
    apply List.filter_congr
    intro x hx
    beta_reduce
    by_cases hxp : x.pageId = p
    · have hxbl : x ∈ bl := hbl3.mem_iff.mpr (mem_pageBlocks.mpr ⟨hx, hxp⟩)
      have hcx : ((bl.map (fun x => x.id)).contains x.id) = true :=
        List.elem_eq_true_of_mem (List.mem_map_of_mem _ hxbl)
      rw [hcx, Bool.and_true]
    · have hbq : (x.pageId == p) = false := by simp [hxp]
      rw [hbq, Bool.false_and]
  rw [hfilter1, foldl_ite_eq_foldl_filter]
  set S := sortByPos (db.blocks.filter (fun x => x.pageId == p)) with hS
  have hSperm : S.Perm (db.blocks.filter (fun x => x.pageId == p)) := sortByPos_perm _
  have hSnodids : (S.map (fun x => x.id)).Nodup :=
    perm_ids_nodup hSperm (pageBlocks_ids_nodup hnod p)
  set Sq := S.filter (fun a => decide (a.position ≥ q)) with hSq
  have hSqnod : (Sq.map (fun x => x.id)).Nodup :=
    ((List.filter_sublist _).map _).nodup hSnodids
  have hmemSq : ∀ x, x ∈ Sq ↔ x ∈ db.blocks ∧ x.pageId = p ∧ q ≤ x.position := by
    intro x
    rw [hSq, List.mem_filter, hSperm.mem_iff, List.mem_filter]
    constructor
    · rintro ⟨⟨h1, h2⟩, h3⟩
      refine ⟨h1, by simpa using h2, by simpa using h3⟩
    · rintro ⟨h1, h2, h3⟩
      exact ⟨⟨h1, by simpa using h2⟩, by simpa using h3⟩
  have hSqsub : ∀ x ∈ Sq, x ∈ db.blocks := fun x hx => ((hmemSq x).mp hx).1
  have hSqsub1 : ∀ x ∈ Sq, x ∈ db.blocks ++ [nb] :=
    fun x hx => List.mem_append_left _ (hSqsub x hx)
  have hnbSq : nb ∉ Sq := by
    intro h
    exact hfreshne nb (hSqsub nb h) hnbid
  set g : Block → Block := fun x =>
    if x ∈ Sq then { x with position := x.position + 1, updatedAt := now } else x with hg
  have hfold := foldl_updateFirst_eq_map Sq (fun a => a.id)
    (fun a x => { x with position := a.position + 1, updatedAt := now })
    (db.blocks ++ [nb]) hnod1 hSqnod (fun a x => rfl)
  have hfoldg : Sq.foldl (fun acc x => updateFirst (fun y => y.id == x.id)
        (fun y => { y with position := x.position + 1, updatedAt := now }) acc)
        (db.blocks ++ [nb])
      = (db.blocks ++ [nb]).map g := by
    rw [hfold]
    apply List.map_congr_left
    intro x hx
    rw [find?_id_self hnod1 hSqsub1 hx]
    by_cases hxs : x ∈ Sq
    · rw [if_pos hxs]
      simp only [hg, if_pos hxs]
    · rw [if_neg hxs]
      simp only [hg, if_neg hxs]
  have hgid : ∀ y, (g y).id = y.id := by
    intro y
    rw [hg]
    by_cases h : y ∈ Sq <;> simp [h]
  have hgpg : ∀ y, (g y).pageId = y.pageId := by
    intro y
    rw [hg]
    by_cases h : y ∈ Sq <;> simp [h]
  have hgnb : g nb = nb := by
    rw [hg]
    simp [hnbSq]
  rw [hfoldg, List.map_append]
  have hmapnb : [nb].map g = [nb] := by
    simp [hgnb]
  rw [hmapnb]
  refine ⟨?_, ?_, ?_, ?_⟩
  · intro x hx
    rcases List.mem_append.mp hx with h | h
    · obtain ⟨z, hz, rfl⟩ := List.mem_map.mp h
      rw [hgid]
      show z.id < db.nextId + 1
      have := hfresh z hz
      omega
    · have hxnb : x = nb := by simpa using h
      rw [hxnb, hnbid]
      show db.nextId < db.nextId + 1
      omega
  · have hidcol : ((db.blocks.map g ++ [nb]).map (fun x => x.id))
        = ((db.blocks ++ [nb]).map (fun x => x.id)) := by
      rw [List.map_append, List.map_append, List.map_map]
      congr 1
      exact List.map_congr_left (fun y _ => hgid y)
    rw [hidcol]
    exact hnod1
  · intro p' hnone'
    by_cases hp' : p' = p
    · subst hp'
      simp only [findContent] at hnone'
      rw [findContent_updateFirst_set hfind] at hnone'
      cases hnone'
    · have hother : findContent db p' = none := by
        simp only [findContent] at hnone' ⊢
        rw [findContent_updateFirst_other (Ne.symm hp')] at hnone'
        · exact hnone'
        · intro x
          rfl
      have hold := horphan p' hother
      simp only [pageBlocks] at hold ⊢
      rw [List.filter_append, filter_map_pageId hgpg, hold]
      have hnbf : [nb].filter (fun x => x.pageId == p') = [] := by
        have hb : (nb.pageId == p') = false := by
          rw [hnbpg]
          simp [Ne.symm hp']
        simp [List.filter, hb]
      rw [hnbf]
      rfl
  · intro p' pc' hfind'
    by_cases hp' : p' = p
    · subst hp'
      simp only [findContent] at hfind'
      rw [findContent_updateFirst_set hfind] at hfind'
      obtain rfl : setContent (some (jsInsert pc.blocks q (BlockRef.id db.nextId)))
          (pc.version + 1) u now pc = pc' := by
        injection hfind'
      refine ⟨insertAt (bl.map (fun y =>
        if q ≤ y.position then ({ y with position := y.position + 1, updatedAt := now } : Block) else y)) q.toNat nb, ?_, ?_, ?_⟩
      · show jsInsert pc.blocks q (BlockRef.id db.nextId) = _
        rw [insertAt_map]
        have hmm : (bl.map (fun y =>
            if q ≤ y.position then ({ y with position := y.position + 1, updatedAt := now } : Block) else y)).map (fun x => BlockRef.id x.id)
            = pc.blocks := by
          rw [List.map_map, hbl1]
          apply List.map_congr_left
          intro y _
          by_cases h : q ≤ y.position <;> simp [h]
        rw [hmm]
        show jsInsert pc.blocks q (BlockRef.id db.nextId)
          = insertAt pc.blocks q.toNat (BlockRef.id nb.id)
        rw [hnbid]
        simp only [jsInsert]
        rw [if_neg (by omega)]
      · exact PosFrom_insert_shift (fun y => rfl) q.toNat bl 0 q nb
          (by omega) rfl (by rw [hlen] at hqlen; omega) hbl2
      · show (insertAt (bl.map (fun y =>
            if q ≤ y.position then ({ y with position := y.position + 1, updatedAt := now } : Block) else y)) q.toNat nb).Perm
            ((db.blocks.map g ++ [nb]).filter (fun x => x.pageId == p'))
        rw [List.filter_append, filter_map_pageId hgpg]
        have hnbf : [nb].filter (fun x => x.pageId == p') = [nb] := by
          have hb : (nb.pageId == p') = true := by
            rw [hnbpg]
            simp
          simp [List.filter, hb]
        rw [hnbf]
        have hmapg : bl.map (fun y =>
            if q ≤ y.position then ({ y with position := y.position + 1, updatedAt := now } : Block) else y) = bl.map g := by
          apply List.map_congr_left
          intro y hy
          by_cases hyq : q ≤ y.position
          · have hySq : y ∈ Sq := (hmemSq y).mpr ⟨hblsub y hy, hblpg y hy, hyq⟩
            rw [if_pos hyq, hg]
            simp [hySq]
          · have hySq : y ∉ Sq := by
              intro hmem
              exact hyq ((hmemSq y).mp hmem).2.2
            rw [if_neg hyq, hg]
            simp [hySq]
        rw [hmapg]
        refine (insertAt_perm _ _ _).trans ?_
        refine ((hbl3.map g).cons nb).trans ?_
        exact (List.perm_append_singleton nb _).symm
    · have hother : findContent db p' = some pc' := by
        simp only [findContent] at hfind' ⊢
        rw [findContent_updateFirst_other (Ne.symm hp')] at hfind'
        · exact hfind'
        · intro x
          rfl
      obtain ⟨bl'', h1, h2, h3⟩ := hshape p' pc' hother
      refine ⟨bl'', h1, h2, ?_⟩
      show bl''.Perm ((db.blocks.map g ++ [nb]).filter (fun x => x.pageId == p'))
      rw [List.filter_append, filter_map_pageId hgpg]
      have hnbf : [nb].filter (fun x => x.pageId == p') = [] := by
        have hb : (nb.pageId == p') = false := by
          rw [hnbpg]
          simp [Ne.symm hp']
        simp [List.filter, hb]
      rw [hnbf, List.append_nil]
      have hgone : ∀ y ∈ db.blocks.filter (fun x => x.pageId == p'), g y = y := by
        intro y hy
        have hyp' : y.pageId = p' := by
          have := (List.mem_filter.mp hy).2
          simpa using this
        rw [hg]
        have hnot : y ∉ Sq := by
          intro hmem
          exact hp' (by rw [← hyp', ((hmemSq y).mp hmem).2.1])
        simp [hnot]
      rw [List.map_congr_left hgone, List.map_id']
      exact h3

/-- Every C4-admissible request preserves the invariant. -/
theorem Inv_step {db : DB} (hInv : Inv db) (op : Op) (hok : C4Ok db op) (now : Nat) :
    Inv (op.step db now).1 := by
  cases op with
  | create u p ty c pos props =>
    show Inv (createBlock db u p ty c pos props now).1
    cases hfind : findContent db p with
    | none =>
      cases pos with
      | none =>
        rw [createBlock_eq_new_none hfind]
        exact Inv_newpage hInv hfind rfl rfl rfl
      | some q =>
        have hq : 0 ≤ q ∧
            q ≤ ((((findContent db p).map (fun pc => pc.blocks.length)).getD 0 : Nat) : Int) :=
          hok
        rw [hfind] at hq
        simp at hq
        have hq0 : q = 0 := by omega
        subst hq0
        rw [createBlock_eq_new_some hfind]
        exact Inv_newpage hInv hfind rfl rfl rfl
    | some pc =>
      cases pos with
      | none => exact Inv_createBlock_append hInv hfind
      | some q =>
        have hq : 0 ≤ q ∧
            q ≤ ((((findContent db p).map (fun pc => pc.blocks.length)).getD 0 : Nat) : Int) :=
          hok
        rw [hfind] at hq
        simp at hq
        exact Inv_createBlock_pos hInv hfind hq.1 hq.2
  | update u b patch => cases hok
  | delete u b => exact Inv_deleteBlock hInv u b now
  | move u b pos => exact Inv_updateBlockPosition hInv u b pos now
  | dup u b => exact Inv_duplicateBlock hInv u b now
  | replace u p bs => cases hok
  | restore u p v => cases hok
  | applyTmpl u p t ow => cases hok

/-- Playing any C4-admissible request sequence preserves the invariant. -/
theorem Inv_runFrom : ∀ (ops : List Op) (db : DB) (t : Nat),
    Inv db → C4Run db t ops → Inv (runFrom db t ops) := by
  intro ops
  induction ops with
  | nil =>
    intro db t hInv _
    exact hInv
  | cons op ops ih =>
    intro db t hInv hrun
    exact ih (op.step db t).1 (t + 1) (Inv_step hInv op hrun.1 t) hrun.2

/-- C4: refuted as stated. A single successful createBlock with position 1 on
an empty page leaves the page's only block at position 1, so the positions are
not {0, ..., count-1}. -/
theorem C4_counterexample :
    (Op.step DB.empty (.create 7 1 "text" none (some 1) none) 0).2.isSuccess = true
    ∧ (pageBlocks (run [.create 7 1 "text" none (some 1) none]) 1).map (fun x => x.position)
        = [1]
    ∧ ¬ ((pageBlocks (run [.create 7 1 "text" none (some 1) none]) 1).map
          (fun x => x.position)).Perm
        ((List.range (pageBlocks (run [.create 7 1 "text" none (some 1) none]) 1).length).map
          (fun j : Nat => (j : Int))) := by
  refine ⟨by decide, by decide, by decide⟩

/-- C4 (amended): starting from the empty store, after any sequence of
createBlock / deleteBlock / updateBlockPosition / duplicateBlock requests in
which every createBlock's supplied position lies in [0, the page's current
block count] (`C4Run`), the position fields of every page's blocks are a
permutation of {0, 1, ..., count-1}. -/
theorem C4_amended (ops : List Op) (h : C4Run DB.empty 0 ops) (p : Nat) :
    ((pageBlocks (run ops) p).map (fun x => x.position)).Perm
      ((List.range (pageBlocks (run ops) p).length).map (fun j : Nat => (j : Int))) :=
  Inv_positions_perm (Inv_runFrom ops DB.empty 0 Inv_empty h) p

/-- Witness: a concrete admissible run (append-create, splice-create at 0,
duplicate, delete) whose surviving positions are a permutation of
{0, ..., count-1}. -/
theorem C4_amended_witness :
    C4Run DB.empty 0 [.create 7 1 "text" none none none,
      .create 7 1 "text" none (some 0) none, .dup 7 0, .delete 7 1]
    ∧ ((pageBlocks (run [.create 7 1 "text" none none none,
          .create 7 1 "text" none (some 0) none, .dup 7 0, .delete 7 1]) 1).map
          (fun x => x.position)).Perm
        ((List.range (pageBlocks (run [.create 7 1 "text" none none none,
          .create 7 1 "text" none (some 0) none, .dup 7 0, .delete 7 1]) 1).length).map
          (fun j : Nat => (j : Int))) := by
  have h : C4Run DB.empty 0 [.create 7 1 "text" none none none,
      .create 7 1 "text" none (some 0) none, .dup 7 0, .delete 7 1] :=
    ⟨trivial, ⟨by decide, by decide⟩, trivial, trivial, trivial⟩
  exact ⟨h, C4_amended [.create 7 1 "text" none none none,
    .create 7 1 "text" none (some 0) none, .dup 7 0, .delete 7 1] h 1⟩

end IdeaHive

